import Mathlib

/-!
Verification of the BFME2 replay decoder (`src/parser/replay.rs` and
`src/models/replay.rs`) against its natural-language specification.

The Rust source is shallowly embedded: byte buffers are `List ℕ` (each
element a byte value), machine integers become `ℕ`/`ℤ` with explicit
wrapping where the source wraps (`as u8` casts), `f32` values become exact
scaled integers (every finite f32 is a multiple of 2⁻¹⁴⁹; we store
value·2¹⁴⁹ as an `ℤ`, plus a NaN flag — the pipeline only ever compares
floats with `<` and `!= 0.0`, both of which this representation models
exactly, with ±∞ mapped to ±2²⁷⁸ which preserves the order), and Rust
`HashMap`/`HashSet` become association lists / duplicate-free lists.

Rust `HashMap`/`HashSet` iteration order is randomized per map instance.
Every iteration in the source whose *result* depends on that order is
routed through an explicit `IterOrd` parameter (a bundle of reordering
functions); iterations whose consumers are order-independent (membership
tests, keyed lookups, counts) use insertion order directly.
-/

/-- Faction identifiers, from `models/replay.rs`. -/
inductive Faction where
  | men
  | elves
  | dwarves
  | isengard
  | mordor
  | goblins
  | angmar
  | random
  | unknownFaction (n : ℕ)
deriving DecidableEq

/-- Embedding of `Faction::from_id` (the `i8` faction id becomes `ℤ`). -/
def Faction.from_id (id : ℤ) : Faction :=
  if id = -1 then .random
  else if id = 0 then .men
  else if id = 1 then .goblins
  else if id = 2 then .dwarves
  else if id = 3 then .isengard
  else if id = 4 then .mordor
  else if id = 5 then .angmar
  else if 0 ≤ id then .unknownFaction id.toNat
  else .random

/-- Exact model of an `f32` value: `nan` flag plus the value scaled by 2¹⁴⁹
(every finite f32 is an integer multiple of 2⁻¹⁴⁹; ±∞ maps to ±2²⁷⁸). -/
structure F32 where
  nan : Bool
  val149 : ℤ
deriving DecidableEq

/-- Decode four little-endian bytes as an IEEE-754 single-precision value. -/
def decodeF32 (b0 b1 b2 b3 : ℕ) : F32 :=
  let bits : ℕ := b0 + 256 * b1 + 65536 * b2 + 16777216 * b3
  let sgn : ℤ := if bits < 2 ^ 31 then 1 else -1
  let exp : ℕ := bits / 2 ^ 23 % 2 ^ 8
  let frac : ℕ := bits % 2 ^ 23
  if exp = 255 then
    if frac = 0 then ⟨false, sgn * 2 ^ 278⟩ else ⟨true, 0⟩
  else if exp = 0 then
    ⟨false, sgn * (frac : ℤ)⟩
  else
    ⟨false, sgn * ((2 ^ 23 + frac : ℕ) : ℤ) * 2 ^ (exp - 1)⟩

/-- IEEE `<` on our f32 model: false whenever either side is NaN. -/
def f32lt (a b : F32) : Bool :=
  !a.nan && !b.nan && decide (a.val149 < b.val149)

/-- IEEE `!= 0.0` on our f32 model: true for NaN, false for ±0. -/
def f32ne0 (a : F32) : Bool :=
  a.nan || decide (a.val149 ≠ 0)

/-- Embedding of `MapPosition` (a pair of f32 world coordinates). -/
structure MapPosition where
  x : F32
  y : F32
deriving DecidableEq

/-- Embedding of `MapPosition::new`. -/
def MapPosition.new (x y : F32) : MapPosition := ⟨x, y⟩

/-- Embedding of `MapPosition::is_valid`: `x != 0.0 || y != 0.0`. -/
def MapPosition.is_valid (p : MapPosition) : Bool :=
  f32ne0 p.x || f32ne0 p.y

/-- Embedding of `MAP_X_MIDPOINT` (2500.0 as an f32, exactly representable). -/
def MAP_X_MIDPOINT : F32 := ⟨false, 2500 * 2 ^ 149⟩

/-- Embedding of `PLAYER_COLORS`, the fixed 10-entry RGB palette. -/
def PLAYER_COLORS : List (ℕ × ℕ × ℕ) :=
  [(70, 91, 156), (158, 56, 42), (175, 189, 76), (62, 152, 100),
   (206, 135, 69), (122, 168, 204), (148, 116, 183), (204, 159, 188),
   (100, 100, 100), (226, 226, 226)]

/-- Embedding of the `Player` struct (strings become codepoint lists). -/
structure Player where
  name : List ℕ
  uid : Option (List ℕ)
  team : ℤ
  team_raw : ℤ
  slot : ℕ
  faction : Faction
  color_id : ℤ
  color_rgb : ℕ × ℕ × ℕ
  map_position : Option MapPosition
  actual_faction : Option Faction
deriving DecidableEq

/-- Embedding of the `Winner` enum. -/
inductive Winner where
  | leftTeam
  | rightTeam
  | likelyLeftTeam
  | likelyRightTeam
  | notConcluded
  | unknownWinner
deriving DecidableEq

/-- Embedding of the `ReplayError` enum (spectator names and messages kept). -/
inductive ReplayError where
  | invalidHeader
  | unsupportedMap (name : List ℕ)
  | noPlayers
  | parseError (msg : String)
  | renderError (msg : String)
deriving DecidableEq

/-- Embedding of the `ReplayInfo` struct (spectators reduced to their names,
exactly as the `Spectator` struct carries only a name). -/
structure ReplayInfo where
  map_name : List ℕ
  players : List Player
  spectators : List (List ℕ)
  start_time : Option ℕ
  end_time : Option ℕ
  winner : Winner
  game_crashed : Bool
  estimated_duration_secs : Option ℕ
deriving DecidableEq

/-- Embedding of the internal `HeaderPlayer` struct. -/
structure HeaderPlayer where
  name : List ℕ
  uid : Option (List ℕ)
  color_id : ℤ
  faction_id : ℤ
  team_raw : ℤ
  slot : ℕ
deriving DecidableEq

/-- Output of `find_players_and_spectators_in`: players, spectator names and
occupied slot indices, in table order. -/
structure HeaderTable where
  players : List HeaderPlayer
  spectators : List (List ℕ)
  occupied_slots : List ℕ
deriving DecidableEq

/- ## Byte and text utilities -/

/-- Read a little-endian `u32` at offset `i` (out-of-range bytes default to 0;
every use in the source is bounds-checked before the read). -/
def readU32 (data : List ℕ) (i : ℕ) : ℕ :=
  data.getD i 0 + 256 * data.getD (i + 1) 0 + 65536 * data.getD (i + 2) 0 +
    16777216 * data.getD (i + 3) 0

/-- Decode one UTF-8 codepoint from a leading byte and the remaining bytes,
rejecting malformed input exactly as `std::str::from_utf8` does (continuation
ranges, overlong forms, surrogates and values above U+10FFFF all rejected);
returns the codepoint and the bytes after it. -/
def utf8Step (b : ℕ) (rest : List ℕ) : Option (ℕ × List ℕ) :=
  if b < 128 then some (b, rest)
  else if 194 ≤ b ∧ b ≤ 223 then
    match rest with
    | b1 :: r =>
      if 128 ≤ b1 ∧ b1 ≤ 191 then some ((b - 192) * 64 + (b1 - 128), r)
      else none
    | [] => none
  else if 224 ≤ b ∧ b ≤ 239 then
    match rest with
    | b1 :: b2 :: r =>
      let lo1 := if b = 224 then 160 else 128
      let hi1 := if b = 237 then 159 else 191
      if (lo1 ≤ b1 ∧ b1 ≤ hi1) ∧ (128 ≤ b2 ∧ b2 ≤ 191) then
        some ((b - 224) * 4096 + (b1 - 128) * 64 + (b2 - 128), r)
      else none
    | _ => none
  else if 240 ≤ b ∧ b ≤ 244 then
    match rest with
    | b1 :: b2 :: b3 :: r =>
      let lo1 := if b = 240 then 144 else 128
      let hi1 := if b = 244 then 143 else 191
      if (lo1 ≤ b1 ∧ b1 ≤ hi1) ∧ (128 ≤ b2 ∧ b2 ≤ 191) ∧
          (128 ≤ b3 ∧ b3 ≤ 191) then
        some ((b - 240) * 262144 + (b1 - 128) * 4096 + (b2 - 128) * 64 +
          (b3 - 128), r)
      else none
    | _ => none
  else none

/-- UTF-8 decoding as iterated `utf8Step`. A step can consume up to four
bytes, so the recursion is driven by fuel to stay structural; any fuel
exceeding the byte count gives the decoder itself. -/
def utf8DecodeF : ℕ → List ℕ → Option (List ℕ)
  | 0, _ => none
  | _ + 1, [] => some []
  | fuel + 1, b :: rest =>
    match utf8Step b rest with
    | some (c, r) => (utf8DecodeF fuel r).map (c :: ·)
    | none => none

/-- UTF-8 decoding of a byte list into codepoints, rejecting malformed input
exactly as `std::str::from_utf8` does. -/
def utf8Decode (l : List ℕ) : Option (List ℕ) :=
  utf8DecodeF (l.length + 1) l

/-- The curated Windows-1254 (Turkish) fallback byte map from
`decode_with_turkish_fallback`; bytes below 0x80 pass through, unmapped high
bytes fall back to Latin-1 (which never produces U+FFFD because every byte
value is a valid codepoint). -/
def turkishByte (b : ℕ) : ℕ :=
  if b = 128 then 8364
  else if b = 138 then 350
  else if b = 140 then 338
  else if b = 154 then 351
  else if b = 156 then 339
  else if b = 159 then 376
  else if b = 199 then 199
  else if b = 208 then 286
  else if b = 221 then 304
  else if b = 222 then 350
  else if b = 231 then 231
  else if b = 240 then 287
  else if b = 253 then 305
  else if b = 254 then 351
  else b

/-- Embedding of `decode_with_turkish_fallback`: UTF-8 first, else the
byte-by-byte Turkish/Latin-1 fallback. -/
def decode_with_turkish_fallback (bytes : List ℕ) : List ℕ :=
  match utf8Decode bytes with
  | some s => s
  | none => bytes.map turkishByte

/-- UTF-8 byte length of one codepoint (used to model Rust `str::len`,
which counts bytes, for the decoded strings). -/
def utf8Len (c : ℕ) : ℕ :=
  if c < 128 then 1 else if c < 2048 then 2 else if c < 65536 then 3 else 4

/-- Byte length of a decoded string (list of codepoints). -/
def strByteLen (s : List ℕ) : ℕ := (s.map utf8Len).sum

/-- Rust `char::is_whitespace` (the Unicode White_Space property), used by
`str::trim`. -/
def isRustWhitespace (c : ℕ) : Bool :=
  c = 9 || c = 10 || c = 11 || c = 12 || c = 13 || c = 32 || c = 133 ||
  c = 160 || c = 5760 || (8192 ≤ c && c ≤ 8202) || c = 8232 || c = 8233 ||
  c = 8239 || c = 8287 || c = 12288

/-- Embedding of `str::trim` on a codepoint list. -/
def strTrim (s : List ℕ) : List ℕ :=
  ((s.dropWhile isRustWhitespace).reverse.dropWhile isRustWhitespace).reverse

/-- Split a codepoint list at every occurrence of the separator (Rust
`str::split` semantics: empty segments kept, `n` separators give `n+1`
segments). -/
def splitOnSep (sep : ℕ) : List ℕ → List (List ℕ)
  | [] => [[]]
  | c :: rest =>
    let r := splitOnSep sep rest
    if c = sep then [] :: r
    else
      match r with
      | [] => [[c]]
      | s :: ss => (c :: s) :: ss

/-- Embedding of `str::parse::<i8>`: optional sign, one or more ASCII digits,
result within `[-128, 127]`, anything else fails. -/
def parseI8 (s : List ℕ) : Option ℤ :=
  let digitsVal : List ℕ → Option ℕ := fun ds =>
    if ds = [] then none
    else if ds.all (fun d => 48 ≤ d ∧ d ≤ 57) then
      some (ds.foldl (fun acc d => acc * 10 + (d - 48)) 0)
    else none
  match s with
  | 43 :: rest =>
    (digitsVal rest).bind (fun v => if v ≤ 127 then some (v : ℤ) else none)
  | 45 :: rest =>
    (digitsVal rest).bind (fun v => if v ≤ 128 then some (-(v : ℤ)) else none)
  | _ =>
    (digitsVal s).bind (fun v => if v ≤ 127 then some (v : ℤ) else none)

/-- ASCII lowercasing of a codepoint. The source calls Rust
`String::to_lowercase` (full Unicode) and then checks containment of the
ASCII pattern `wor rhun`; no codepoint outside A–Z lowercases to any of the
pattern's characters, so ASCII lowering with identity elsewhere is
extensionally equivalent for that containment test. -/
def toLowerAscii (c : ℕ) : ℕ :=
  if 65 ≤ c ∧ c ≤ 90 then c + 32 else c

/-- Substring containment on codepoint lists (for an ASCII pattern this
matches Rust `str::contains` exactly: ASCII bytes never occur inside a
multi-byte UTF-8 sequence). -/
def containsSub (pat : List ℕ) : List ℕ → Bool
  | [] => decide (pat = [])
  | c :: rest =>
    if (c :: rest).take pat.length = pat then true else containsSub pat rest

/-- Find the first occurrence of `pat` and return the suffix after it
(models Rust `str::find` plus slicing past the match). -/
def findSubAfter (pat : List ℕ) : List ℕ → Option (List ℕ)
  | [] => if pat = [] then some [] else none
  | c :: rest =>
    if (c :: rest).take pat.length = pat then some ((c :: rest).drop pat.length)
    else findSubAfter pat rest

/- ## Header extraction -/

/-- Embedding of `extract_map_name_from_path`: strip everything up to and
including the first `maps/`; fall back to the raw (nonempty) path. -/
def extract_map_name_from_path (path : List ℕ) : Option (List ℕ) :=
  match findSubAfter mapsSlash path with
  | some name => if name ≠ [] then some name else rawFallback path
  | none => rawFallback path
where
  mapsSlash : List ℕ := [109, 97, 112, 115, 47]
  rawFallback (p : List ℕ) : Option (List ℕ) :=
    if p ≠ [] then some p else none

/-- Embedding of the `M=` scan in `find_map_name_in`. The Rust loop runs
`i` over `0 .. len - 2` (exclusive), i.e. it requires a byte to exist after
the two marker bytes, which the three-element pattern below captures. On a
match it takes bytes up to the next `;`; if that span is nonempty and valid
UTF-8 it returns `extract_map_name_from_path`, otherwise it keeps
scanning from the next byte. -/
def find_map_name_in : List ℕ → Option (List ℕ)
  | 77 :: 61 :: c :: rest =>
    let span := (c :: rest).takeWhile (fun b => b ≠ 59)
    match if span ≠ [] then utf8Decode span else none with
    | some path => extract_map_name_from_path path
    | none => find_map_name_in (61 :: c :: rest)
  | _ :: rest => find_map_name_in rest
  | [] => none

/-- The supported-map test: `map_name.to_lowercase().contains("wor rhun")`
(codepoints of `wor rhun` are 119,111,114,32,114,104,117,110). -/
def containsWorRhun (name : List ℕ) : Bool :=
  containsSub [119, 111, 114, 32, 114, 104, 117, 110] (name.map toLowerAscii)

/-- Embedding of `parse_player_data`. `slot` is already the wrapped `u8`
value. Field layout: `HName,UID,Port,TT,ColorID,field5,FactionID,Team,...`. -/
def parse_player_data (s0 : List ℕ) (slot : ℕ) : Option HeaderPlayer :=
  let s := strTrim s0
  if s = [] ∨ s = [88] ∨ s = [79] ∨ s = [59] then none
  else
    let parts := splitOnSep 44 s
    if parts.length < 8 then none
    else
      let rawName := parts.getD 0 []
      let name :=
        if rawName.take 1 = [72] ∧ strByteLen rawName > 1 then rawName.drop 1
        else rawName
      if name = [] then none
      else
        let uid :=
          if parts.length > 1 ∧ strByteLen (parts.getD 1 []) = 8 then
            some (parts.getD 1 [])
          else none
        let color_id := (parseI8 (parts.getD 4 [])).getD (-1)
        let faction_id := (parseI8 (parts.getD 6 [])).getD (-1)
        let team_raw := (parseI8 (parts.getD 7 [])).getD (-1)
        some ⟨name, uid, color_id, faction_id, team_raw, slot⟩

/-- Process the `:`-separated slot entries starting at slot index `idx`;
the source casts the index with `as u8`, hence the `% 256`. -/
def processEntries (idx : ℕ) : List (List ℕ) → HeaderTable
  | [] => ⟨[], [], []⟩
  | e :: es =>
    let r := processEntries (idx + 1) es
    match parse_player_data e (idx % 256) with
    | some hp =>
      if 0 ≤ hp.team_raw then
        ⟨hp :: r.players, r.spectators, idx % 256 :: r.occupied_slots⟩
      else
        ⟨r.players, hp.name :: r.spectators, idx % 256 :: r.occupied_slots⟩
    | none => r

/-- Span scan for the player table: stop at NUL / LF / CR or at a
`;<UPPERCASE>=` lookahead with both lookahead bytes present (the source
requires `end + 2 < len`, i.e. two further elements). -/
def takePlayersSpan : List ℕ → List ℕ
  | [] => []
  | b :: rest =>
    if b = 0 ∨ b = 10 ∨ b = 13 then []
    else
      match rest with
      | u :: e :: _ =>
        if b = 59 ∧ (65 ≤ u ∧ u ≤ 90) ∧ e = 61 then []
        else b :: takePlayersSpan rest
      | _ => b :: takePlayersSpan rest

/-- The `;S=` scan of `find_players_and_spectators_in`, reduced to the
list of `:`-separated slot entries (decoded codepoints). The Rust loop
bound `0 .. len - 3` (exclusive) requires a byte after the three marker
bytes, hence the four-element pattern; the source breaks after the first
marker occurrence, and an empty captured span yields no entries. -/
def playerEntriesOf : List ℕ → List (List ℕ)
  | 59 :: 83 :: 61 :: d :: rest =>
    let span := takePlayersSpan (d :: rest)
    if span ≠ [] then splitOnSep 58 (decode_with_turkish_fallback span)
    else []
  | _ :: rest => playerEntriesOf rest
  | [] => []

/-- Embedding of `find_players_and_spectators_in`: locate the player
table, decode and split it, then process every slot entry in order. -/
def find_players_and_spectators_in (data : List ℕ) : HeaderTable :=
  processEntries 0 (playerEntriesOf data)

/-- Position of the first zero byte at or after the start of the list
(offset relative to the list head). -/
def firstZeroAt : List ℕ → Option ℕ
  | [] => none
  | b :: rest =>
    if b = 0 then some 0 else (firstZeroAt rest).map (· + 1)

/-- Embedding of `find_chunks_start`: find the first `;S=` (loop bound
`0 .. len - 3`, so a byte must follow the marker), then return one past the
first zero byte at or after the marker position. If the first marker has no
zero after it, later markers cannot have one either, so the single-scan
embedding is equivalent to the source's nested loop. -/
def find_chunks_start (data : List ℕ) : Option ℕ :=
  go 0 data
where
  go (i : ℕ) : List ℕ → Option ℕ
    | 59 :: 83 :: 61 :: d :: rest =>
      (firstZeroAt (59 :: 83 :: 61 :: d :: rest)).map (fun j => i + j + 1)
    | _ :: rest => go (i + 1) rest
    | [] => none

/- ## Color assignment -/

/-- Insert into a duplicate-free list if absent (HashSet insert). -/
def setInsert (x : ℤ) (l : List ℤ) : List ℤ :=
  if x ∈ l then l else x :: l

/-- The set of explicitly used color ids (`color_id >= 0`), first pass of
`assign_player_colors`. -/
def collectUsedColors (players : List HeaderPlayer) : List ℤ :=
  players.foldl
    (fun used p => if 0 ≤ p.color_id then setInsert p.color_id used else used)
    []

/-- Build the list of contiguous runs `(start, end, len)` of an ascending
list of available ids, as `find_best_gap` does. -/
def gapsOf : List ℤ → List (ℤ × ℤ × ℤ)
  | [] => []
  | a :: rest => go a a rest
where
  go (s e : ℤ) : List ℤ → List (ℤ × ℤ × ℤ)
    | [] => [(s, e, e - s + 1)]
    | a :: rest =>
      if a = e + 1 then go s a rest
      else (s, e, e - s + 1) :: go a a rest

/-- The comparator of `find_best_gap`'s `sort_by`: length descending, then
end descending. -/
def gapLE (a b : ℤ × ℤ × ℤ) : Bool :=
  if a.2.2 ≠ b.2.2 then decide (b.2.2 ≤ a.2.2) else decide (b.2.1 ≤ a.2.1)

/-- Stable insertion sort, modelling Rust's stable `sort_by`. The comparator
is a total preorder, and the gap list never contains two runs with the same
end index, so any correct sort produces the same list. -/
def insertionSortBy (le : α → α → Bool) : List α → List α
  | [] => []
  | a :: rest => insertSorted a (insertionSortBy le rest)
where
  insertSorted (a : α) : List α → List α
    | [] => [a]
    | b :: rest => if le a b then a :: b :: rest else b :: insertSorted a rest

/-- Embedding of `find_best_gap`: available ids are `0..8` minus the used
set; runs are sorted by (length desc, end desc) and the first is returned,
with `(0,0,0)` when nothing is available. -/
def find_best_gap (used : List ℤ) : ℤ × ℤ × ℤ :=
  let available : List ℤ :=
    ((List.range 9).map (fun n => (n : ℤ))).filter (fun c => c ∉ used)
  if available = [] then (0, 0, 0)
  else
    match insertionSortBy gapLE (gapsOf available) with
    | g :: _ => g
    | [] => (0, 0, 0)

/-- The inner scan of `assign_player_colors`: first offset in `0..10` whose
color `(next + offset) % 10` is unused. -/
def pickColor (used : List ℤ) (next : ℤ) : Option ℤ :=
  ((List.range 10).map (fun off : ℕ => (next + (off : ℤ)) % 10)).find?
    (fun c => c ∉ used)

/-- Second pass of `assign_player_colors`: walk players in order, assigning
each `-1` color the first unused id from the cursor; a player keeps `-1`
when all ten ids are used (the Rust inner loop finds no break). -/
def assignColorsGo (used : List ℤ) (next : ℤ) :
    List HeaderPlayer → List HeaderPlayer
  | [] => []
  | p :: ps =>
    if p.color_id = -1 then
      match pickColor used next with
      | some c =>
        { p with color_id := c } :: assignColorsGo (c :: used) ((c + 1) % 10) ps
      | none => p :: assignColorsGo used next ps
    else p :: assignColorsGo used next ps

/-- Embedding of `assign_player_colors` (functional: returns the updated
player list instead of mutating in place). -/
def assign_player_colors (players : List HeaderPlayer) : List HeaderPlayer :=
  let used := collectUsedColors players
  let g := find_best_gap used
  let next : ℤ := if 3 ≤ g.2.2 then g.1 else g.2.1
  assignColorsGo used next players

/- ## Building the player list -/

/-- Sorted list of distinct team_raw values among players with
`team_raw >= 0` (the source collects into a HashSet, then sorts). -/
def teamRawsOf (players : List HeaderPlayer) : List ℤ :=
  insertionSortBy (fun a b => decide (a ≤ b))
    (players.foldl
      (fun acc p => if 0 ≤ p.team_raw then setInsert p.team_raw acc else acc)
      [])

/-- Index of the first occurrence of an element (Rust `iter().position`). -/
def posOf (x : ℤ) : List ℤ → Option ℕ
  | [] => none
  | a :: rest => if a = x then some 0 else (posOf x rest).map (· + 1)

/-- Embedding of `build_players`. -/
def build_players (header_players : List HeaderPlayer) : List Player :=
  let team_raws := teamRawsOf header_players
  header_players.map (fun hp =>
    let team : ℤ :=
      match posOf hp.team_raw team_raws with
      | some i => (i : ℤ) + 1
      | none => hp.team_raw + 1
    let color_rgb :=
      if 0 ≤ hp.color_id ∧ hp.color_id < 10 then
        PLAYER_COLORS.getD hp.color_id.toNat (128, 128, 128)
      else (128, 128, 128)
    ⟨hp.name, hp.uid, team, hp.team_raw, hp.slot, Faction.from_id hp.faction_id,
      hp.color_id, color_rgb, none, none⟩)

/- ## Chunk decoding -/

/-- Embedding of `get_arg_size` (the `ARG_SIZES` table, default 4). -/
def get_arg_size (arg_type : ℕ) : ℕ :=
  if arg_type = 0 then 4
  else if arg_type = 1 then 4
  else if arg_type = 2 then 1
  else if arg_type = 3 then 4
  else if arg_type = 4 then 4
  else if arg_type = 5 then 8
  else if arg_type = 6 then 12
  else if arg_type = 7 then 12
  else if arg_type = 8 then 16
  else if arg_type = 9 then 4
  else if arg_type = 10 then 4
  else 4

/-- Embedding of `ChunkArg` (the `Other` payload is dropped as in the
source, which stores `Other(())`). -/
inductive ChunkArg where
  | intArg (v : ℕ)
  | floatArg (f : F32)
  | vec3 (x y z : F32)
  | other
deriving DecidableEq

/-- Embedding of the `Chunk` struct. -/
structure Chunk where
  time_code : ℕ
  order_type : ℕ
  player_num : ℕ
  args : List ChunkArg
deriving DecidableEq

/-- Read `n` argument descriptors (type byte, count byte) starting at `pos`;
fails when a read would pass the end or a count exceeds 50. -/
def readArgSig (data : List ℕ) : ℕ → ℕ → Option (List (ℕ × ℕ) × ℕ)
  | 0, pos => some ([], pos)
  | n + 1, pos =>
    if pos + 2 > data.length then none
    else
      let arg_type := data.getD pos 0
      let arg_count := data.getD (pos + 1) 0
      if arg_count > 50 then none
      else
        (readArgSig data n (pos + 2)).map (fun r => ((arg_type, arg_count) :: r.1, r.2))

/-- Decode one argument value of the given type at `pos` (types 0x06, 0x00
and 0x01 are decoded; everything else becomes `other`). -/
def decodeArg (data : List ℕ) (arg_type pos : ℕ) : ChunkArg :=
  if arg_type = 6 then
    .vec3
      (decodeF32 (data.getD pos 0) (data.getD (pos + 1) 0) (data.getD (pos + 2) 0)
        (data.getD (pos + 3) 0))
      (decodeF32 (data.getD (pos + 4) 0) (data.getD (pos + 5) 0)
        (data.getD (pos + 6) 0) (data.getD (pos + 7) 0))
      (decodeF32 (data.getD (pos + 8) 0) (data.getD (pos + 9) 0)
        (data.getD (pos + 10) 0) (data.getD (pos + 11) 0))
  else if arg_type = 0 then .intArg (readU32 data pos)
  else if arg_type = 1 then
    .floatArg
      (decodeF32 (data.getD pos 0) (data.getD (pos + 1) 0) (data.getD (pos + 2) 0)
        (data.getD (pos + 3) 0))
  else .other

/-- Read `count` arguments of one descriptor. -/
def readArgsCount (data : List ℕ) (arg_type size : ℕ) :
    ℕ → ℕ → Option (List ChunkArg × ℕ)
  | 0, pos => some ([], pos)
  | c + 1, pos =>
    if pos + size > data.length then none
    else
      (readArgsCount data arg_type size c (pos + size)).map
        (fun r => (decodeArg data arg_type pos :: r.1, r.2))

/-- Read all arguments for a descriptor list. -/
def readArgs (data : List ℕ) : List (ℕ × ℕ) → ℕ → Option (List ChunkArg × ℕ)
  | [], pos => some ([], pos)
  | (arg_type, arg_count) :: sig, pos =>
    (readArgsCount data arg_type (get_arg_size arg_type) arg_count pos).bind
      (fun r => (readArgs data sig r.2).map (fun r2 => (r.1 ++ r2.1, r2.2)))

/-- Embedding of `parse_chunk`: header fields, sanity limits, descriptor
table, then arguments; returns the next offset and the decoded chunk. -/
def parse_chunk (data : List ℕ) (offset : ℕ) : Option (ℕ × Chunk) :=
  if offset + 13 > data.length then none
  else
    let time_code := readU32 data offset
    let order_type := readU32 data (offset + 4)
    let player_num := readU32 data (offset + 8)
    let n_arg_types := data.getD (offset + 12) 0
    if time_code > 10000000 ∨ player_num > 100 ∨ n_arg_types > 100 then none
    else
      (readArgSig data n_arg_types (offset + 13)).bind (fun sigR =>
        (readArgs data sigR.1 sigR.2).map (fun argsR =>
          (argsR.2, ⟨time_code, order_type, player_num, argsR.1⟩)))

/- ## Chunk-stream analysis -/

/-- Association-list lookup (HashMap `get`). -/
def assocFind [DecidableEq κ] (k : κ) : List (κ × α) → Option α
  | [] => none
  | (k1, v) :: rest => if k1 = k then some v else assocFind k rest

/-- Association-list overwrite insert (HashMap `insert`). -/
def assocOverwrite [DecidableEq κ] (k : κ) (v : α) :
    List (κ × α) → List (κ × α)
  | [] => [(k, v)]
  | (k1, v1) :: rest =>
    if k1 = k then (k, v) :: rest else (k1, v1) :: assocOverwrite k v rest

/-- Association-list insert-if-absent (HashMap `entry(..).or_insert`). -/
def assocInsertIfAbsent [DecidableEq κ] (k : κ) (v : α) (l : List (κ × α)) :
    List (κ × α) :=
  match assocFind k l with
  | some _ => l
  | none => l ++ [(k, v)]

/-- Duplicate-free list insert (HashSet `insert` on player numbers or
building ids). -/
def natSetInsert (x : ℕ) (l : List ℕ) : List ℕ :=
  if x ∈ l then l else l ++ [x]

/-- Add a building id to a slot's building-id set
(`entry(slot).or_default().insert(bid)`). -/
def addBuildingId (slot bid : ℕ) : List (ℕ × List ℕ) → List (ℕ × List ℕ)
  | [] => [(slot, [bid])]
  | (s, ids) :: rest =>
    if s = slot then (s, natSetInsert bid ids) :: rest
    else (s, ids) :: addBuildingId slot bid rest

/-- Embedding of the `CombatResult` struct. -/
structure CombatResult where
  defeated_players : List ℕ
  endgame_player : Option ℕ
  endgame_timecode : ℕ
  has_endgame : Bool
deriving DecidableEq

/-- The end-game recording rule shared by the chunk loop and the raw
scanner: keep the event with the latest timecode, a later-or-equal timecode
overwriting the stored one. -/
def recordEndgame (c : CombatResult) (pn tc : ℕ) : CombatResult :=
  if !c.has_endgame || decide (c.endgame_timecode ≤ tc) then
    ⟨c.defeated_players, some pn, tc, true⟩
  else
    ⟨c.defeated_players, c.endgame_player, c.endgame_timecode, true⟩

/-- Mutable state of the chunk-processing loop in
`parse_and_analyze_chunks` (separate build/unit position accumulators,
building-id sets, combat data, running maximum timecode). -/
structure AnalyzeState where
  max_timecode : ℕ
  build_positions : List (ℕ × MapPosition)
  unit_positions : List (ℕ × MapPosition)
  player_building_ids : List (ℕ × List ℕ)
  combat : CombatResult
deriving DecidableEq

/-- Initial analysis state. -/
def initAnalyzeState : AnalyzeState := ⟨0, [], [], [], ⟨[], none, 0, false⟩⟩

/-- Embedding of `extract_position`: first `Vec3` argument, x/y kept. -/
def extract_position (ck : Chunk) : Option MapPosition :=
  ck.args.findSome? (fun a =>
    match a with
    | .vec3 x y _ => some (MapPosition.new x y)
    | _ => none)

/-- Embedding of `extract_building_id`: first integer argument strictly
between 2000 and 3000. -/
def extract_building_id (ck : Chunk) : Option ℕ :=
  ck.args.findSome? (fun a =>
    match a with
    | .intArg v => if 2000 < v ∧ v < 3000 then some v else none
    | _ => none)

/-- Embedding of `infer_faction_from_building` (six disjoint id ranges). -/
def infer_faction_from_building (building_type : ℕ) : Option Faction :=
  if 2622 ≤ building_type ∧ building_type ≤ 2720 then some .men
  else if 2577 ≤ building_type ∧ building_type ≤ 2620 then some .elves
  else if 2541 ≤ building_type ∧ building_type ≤ 2575 then some .dwarves
  else if 2151 ≤ building_type ∧ building_type ≤ 2185 then some .goblins
  else if 2060 ≤ building_type ∧ building_type ≤ 2090 then some .isengard
  else if 2130 ≤ building_type ∧ building_type ≤ 2150 then some .mordor
  else none

/-- Embedding of `detect_faction_from_buildings`: first id in the set's
iteration order that falls in a known range. The caller supplies the list
in the (randomized) HashSet iteration order. -/
def detect_faction_from_buildings (buildings : List ℕ) : Option Faction :=
  buildings.findSome? infer_faction_from_building

/-- Iteration orders for the three result-relevant randomized Rust
`HashMap`/`HashSet` iterations: per-slot building-id sets
(`detect_faction_from_buildings`), the team grouping in the winner
fallbacks, and `pn_to_slot` when building the reverse `slot_to_pn` map.
An honest instantiation permutes its input (see `validIterOrd`). -/
structure IterOrd where
  bids : List ℕ → List ℕ
  teams : List (ℤ × List ℕ) → List (ℤ × List ℕ)
  pns : List (ℕ × ℕ) → List (ℕ × ℕ)

/-- An iteration order is valid when each component only reorders its
input. -/
def validIterOrd (o : IterOrd) : Prop :=
  (∀ l, (o.bids l).Perm l) ∧ (∀ l, (o.teams l).Perm l) ∧
    (∀ l, (o.pns l).Perm l)

/-- The identity iteration order. -/
def ordId : IterOrd := ⟨id, id, id⟩

/-- The reversing iteration order (any permutation is a legal HashMap
iteration order; this one differs from `ordId` on lists of length ≥ 2). -/
def ordRev : IterOrd := ⟨List.reverse, List.reverse, List.reverse⟩

/-- One chunk's effect on the analysis state (the body of the success
branch of the decode loop in `parse_and_analyze_chunks`). -/
def analyzeChunkStep (hps : List HeaderPlayer) (p2s : List (ℕ × ℕ))
    (st0 : AnalyzeState) (ck : Chunk) : AnalyzeState :=
  let st := { st0 with max_timecode := max st0.max_timecode ck.time_code }
  match assocFind ck.player_num p2s with
  | none => st
  | some slot =>
    let is_valid_player : Bool := hps.any (fun hp => hp.slot == slot)
    let isBuild : Bool := ck.order_type == 1049 || ck.order_type == 1050
    let st1 :=
      if is_valid_player && (isBuild || ck.order_type == 1071) then
        let stP :=
          match extract_position ck with
          | some pos =>
            if isBuild then
              { st with build_positions :=
                  assocInsertIfAbsent slot pos st.build_positions }
            else
              { st with unit_positions :=
                  assocInsertIfAbsent slot pos st.unit_positions }
          | none => st
        if isBuild then
          match extract_building_id ck with
          | some bid =>
            { stP with player_building_ids :=
                addBuildingId slot bid stP.player_building_ids }
          | none => stP
        else stP
      else st
    let st2 :=
      if ck.order_type == 29 && is_valid_player then
        { st1 with combat := recordEndgame st1.combat ck.player_num ck.time_code }
      else st1
    if ck.order_type == 1096 && is_valid_player then
      let c2 := { st2.combat with
        defeated_players := natSetInsert ck.player_num st2.combat.defeated_players }
      { st2 with combat := c2 }
    else st2

/-- The scan position after one decode attempt: the byte after the last
argument on success, exactly one byte forward on failure. -/
def chunkLoopNext (data : List ℕ) (pos : ℕ) : ℕ :=
  match parse_chunk data pos with
  | some r => r.1
  | none => pos + 1

/-- The decode loop of `parse_and_analyze_chunks`
(`while pos < data.len().saturating_sub(13)`), fuel-indexed; the position
strictly increases each iteration so `data.length + 1` fuel always
suffices. -/
def analyzeLoop (data : List ℕ) (hps : List HeaderPlayer)
    (p2s : List (ℕ × ℕ)) : ℕ → ℕ → AnalyzeState → AnalyzeState
  | 0, _, st => st
  | fuel + 1, pos, st =>
    if pos < data.length - 13 then
      match parse_chunk data pos with
      | some r => analyzeLoop data hps p2s fuel r.1 (analyzeChunkStep hps p2s st r.2)
      | none => analyzeLoop data hps p2s fuel (pos + 1) st
    else st

/-- Merged per-slot positions: build positions first, unit positions fill
the gaps (`or_insert`). -/
def mergedPositions (st : AnalyzeState) : List (ℕ × MapPosition) :=
  st.unit_positions.foldl (fun acc e => assocInsertIfAbsent e.1 e.2 acc)
    (st.build_positions.foldl (fun acc e => assocOverwrite e.1 e.2 acc) [])

/-- The raw scanner's four-byte little-endian pattern test at position `i`:
`[0x48, 0x04, 0, 0]` is order 1096 (player defeated), `[0x1d, 0, 0, 0]` is
order 29 (end game). -/
def rawPatternAt (data : List ℕ) (i : ℕ) : Option ℕ :=
  if data.getD i 0 = 72 ∧ data.getD (i + 1) 0 = 4 ∧ data.getD (i + 2) 0 = 0 ∧
      data.getD (i + 3) 0 = 0 then some 1096
  else if data.getD i 0 = 29 ∧ data.getD (i + 1) 0 = 0 ∧
      data.getD (i + 2) 0 = 0 ∧ data.getD (i + 3) 0 = 0 then some 29
  else none

/-- One position of the raw binary scan: candidate chunk window and the
four acceptance guards at a matched order pattern. -/
def rawScanStep (data : List ℕ) (chunks_start : ℕ)
    (valid_player_nums : List ℕ) (c : CombatResult) (i : ℕ) : CombatResult :=
  match rawPatternAt data i with
  | none => c
  | some cmd =>
    if chunks_start + 4 ≤ i then
      let co := i - 4
      if co + 13 ≤ data.length then
        let tc := readU32 data co
        let pn := readU32 data (co + 8)
        let n_args := data.getD (co + 12) 0
        if (0 < tc ∧ tc < 10000000) ∧ (3 ≤ pn ∧ pn ≤ 20) ∧ n_args ≤ 10 ∧
            pn ∈ valid_player_nums then
          if cmd = 1096 then
            { c with defeated_players := natSetInsert pn c.defeated_players }
          else recordEndgame c pn tc
        else c
      else c
    else c

/-- The raw scanner's single linear pass, fuel-indexed (`i` advances by one
each step, so `data.length` fuel suffices). -/
def rawScanLoop (data : List ℕ) (cs : ℕ) (pns : List ℕ) :
    ℕ → ℕ → CombatResult → CombatResult
  | 0, _, c => c
  | fuel + 1, i, c =>
    if i < data.length - 3 then
      rawScanLoop data cs pns fuel (i + 1) (rawScanStep data cs pns c i)
    else c

/-- Embedding of `raw_scan_for_critical_events`. -/
def raw_scan_for_critical_events (data : List ℕ) (chunks_start : ℕ)
    (valid_player_nums : List ℕ) (c : CombatResult) : CombatResult :=
  if data.length < chunks_start + 8 then c
  else rawScanLoop data chunks_start valid_player_nums data.length chunks_start c

/-- The valid (non-spectator) player-number set: numbers whose slot belongs
to a header player. -/
def validPlayerNums (hps : List HeaderPlayer) (p2s : List (ℕ × ℕ)) : List ℕ :=
  p2s.filterMap (fun e => if hps.any (fun hp => hp.slot == e.2) then some e.1 else none)

/-- Embedding of the `BuildInfo` struct. -/
structure BuildInfo where
  position : MapPosition
  inferred_faction : Option Faction
deriving DecidableEq

/-- Embedding of the `PositionData` struct. -/
structure PositionData where
  player_builds : List (ℕ × BuildInfo)
  player_positions : List (ℕ × MapPosition)
  player_building_ids : List (ℕ × List ℕ)
deriving DecidableEq

/-- Embedding of the `ChunkParseResult` struct. -/
structure ChunkParseResult where
  positions : PositionData
  combat : CombatResult
  max_timecode : ℕ
deriving DecidableEq

/-- Build `player_builds` from merged positions and building-id sets; the
building-id set is iterated in `o.bids` order inside
`detect_faction_from_buildings`. -/
def mkPlayerBuilds (o : IterOrd) (merged : List (ℕ × MapPosition))
    (bids : List (ℕ × List ℕ)) : List (ℕ × BuildInfo) :=
  merged.foldl (fun acc e =>
    let buildings := assocFind e.1 bids
    let inferred := buildings.bind (fun s => detect_faction_from_buildings (o.bids s))
    assocOverwrite e.1 ⟨e.2, inferred⟩ acc) []

/-- The iteration-order-independent part of `parse_and_analyze_chunks`:
chunk loop state after the full decode pass. -/
def chunkLoopState (data : List ℕ) (start : ℕ) (hps : List HeaderPlayer)
    (p2s : List (ℕ × ℕ)) : AnalyzeState :=
  analyzeLoop data hps p2s (data.length + 1) start initAnalyzeState

/-- Embedding of `parse_and_analyze_chunks`: decode loop, position merge,
raw-scan fallback, then `player_builds` with faction inference. -/
def parse_and_analyze_chunks (o : IterOrd) (data : List ℕ) (start : ℕ)
    (hps : List HeaderPlayer) (p2s : List (ℕ × ℕ)) : ChunkParseResult :=
  let st := chunkLoopState data start hps p2s
  let merged := mergedPositions st
  let combat :=
    raw_scan_for_critical_events data start (validPlayerNums hps p2s) st.combat
  ⟨⟨mkPlayerBuilds o merged st.player_building_ids, merged,
      st.player_building_ids⟩,
    combat, st.max_timecode⟩

/- ## Side determination and winner inference -/

/-- Left/Right side of the map (the source uses the strings `Left` and
`Right`). -/
inductive Side where
  | left
  | right
deriving DecidableEq

/-- Embedding of `determine_team_sides`: for each team_raw, the first
player (in player-list order) with a valid position fixes the side by
comparing x against the map midpoint. -/
def determine_team_sides (players : List Player) : List (ℤ × Side) :=
  players.foldl (fun acc p =>
    match p.map_position with
    | some pos =>
      if pos.is_valid && (assocFind p.team_raw acc).isNone then
        acc ++ [(p.team_raw, if f32lt pos.x MAP_X_MIDPOINT then .left else .right)]
      else acc
    | none => acc) []

/-- Embedding of `remap_teams_by_side` (Left = 1, Right = 2). -/
def remap_teams_by_side (players : List Player) (sides : List (ℤ × Side)) :
    List Player :=
  players.map (fun p =>
    match assocFind p.team_raw sides with
    | some s => { p with team := if s = .left then 1 else 2 }
    | none => p)

/-- Embedding of `side_to_winner`. -/
def side_to_winner (s : Side) : Winner :=
  if s = .left then .leftTeam else .rightTeam

/-- Embedding of `side_to_likely_winner`. -/
def side_to_likely_winner (s : Side) : Winner :=
  if s = .left then .likelyLeftTeam else .likelyRightTeam

/-- Embedding of `winner_from_endgame`: player-number → slot → header
player → team side → certain winner. -/
def winner_from_endgame (combat : CombatResult) (hps : List HeaderPlayer)
    (sides : List (ℤ × Side)) (p2s : List (ℕ × ℕ)) : Option Winner :=
  combat.endgame_player.bind (fun pn =>
    (assocFind pn p2s).bind (fun slot =>
      (hps.find? (fun hp => hp.slot == slot)).bind (fun hp =>
        (assocFind hp.team_raw sides).map side_to_winner)))

/-- Inner loop of `winner_from_full_defeat`: first *other* team (in the
same iteration order) whose side is known. -/
def findOtherSide (sides : List (ℤ × Side)) (t : ℤ) :
    List (ℤ × List ℕ) → Option Winner
  | [] => none
  | (u, _) :: rest =>
    if u ≠ t then
      match assocFind u sides with
      | some s => some (side_to_winner s)
      | none => findOtherSide sides t rest
    else findOtherSide sides t rest

/-- Embedding of `winner_from_full_defeat`. `tp` is the team grouping in
the caller-supplied (randomized) iteration order; both the outer loop and
the inner other-team loop iterate it in that same order, as iterating one
Rust `HashMap` twice yields one order. -/
def winner_from_full_defeat (defeated : List ℕ) (tp : List (ℤ × List ℕ))
    (sides : List (ℤ × Side)) : Option Winner :=
  go tp
where
  go : List (ℤ × List ℕ) → Option Winner
    | [] => none
    | (t, ps) :: rest =>
      if ps.all (fun pn => decide (pn ∈ defeated)) then
        match findOtherSide sides t tp with
        | some w => some w
        | none => go rest
      else go rest

/-- Embedding of `winner_from_majority_defeated` (two-team comparison; the
team with strictly more defeats loses, side reported as likely). The two
entries stand in for the source's two key lookups, which agree because the
grouping's keys are distinct by construction. -/
def winner_from_majority_defeated (defeated : List ℕ)
    (tp : List (ℤ × List ℕ)) (sides : List (ℤ × Side)) : Option Winner :=
  match tp with
  | [(ta, psa), (tb, psb)] =>
    let da := (psa.filter (fun pn => decide (pn ∈ defeated))).length
    let db := (psb.filter (fun pn => decide (pn ∈ defeated))).length
    if da > db then (assocFind tb sides).map side_to_likely_winner
    else if db > da then (assocFind ta sides).map side_to_likely_winner
    else none
  | _ => none

/-- Append a player number to its team's group
(`team_players.entry(team_raw).or_default().push(pn)`). -/
def assocPush [DecidableEq κ] (k : κ) (v : α) :
    List (κ × List α) → List (κ × List α)
  | [] => [(k, [v])]
  | (k1, vs) :: rest =>
    if k1 = k then (k1, vs ++ [v]) :: rest else (k1, vs) :: assocPush k v rest

/-- The reverse `slot_to_pn` map, built by iterating `pn_to_slot` in the
caller-supplied order with overwriting inserts (the source iterates a
HashMap into a HashMap). -/
def slotToPnOf (o : IterOrd) (p2s : List (ℕ × ℕ)) : List (ℕ × ℕ) :=
  (o.pns p2s).foldl (fun acc e => assocOverwrite e.2 e.1 acc) []

/-- The team grouping of `determine_winner`: player numbers per team_raw,
in header-player order (deterministic; only its iteration order is
randomized, which callers model via `IterOrd.teams`). -/
def teamPlayersOf (hps : List HeaderPlayer) (s2p : List (ℕ × ℕ)) :
    List (ℤ × List ℕ) :=
  hps.foldl (fun acc hp =>
    match assocFind hp.slot s2p with
    | some pn => assocPush hp.team_raw pn acc
    | none => acc) []

/-- Embedding of `determine_winner`: end-game certain, then full-defeat
certain, then majority-defeated likely, else unknown; the defeat fallbacks
run only when the defeated-set is non-empty. -/
def determine_winner (o : IterOrd) (pr : ChunkParseResult)
    (hps : List HeaderPlayer) (sides : List (ℤ × Side))
    (p2s : List (ℕ × ℕ)) : Winner :=
  let s2p := slotToPnOf o p2s
  let tp := o.teams (teamPlayersOf hps s2p)
  match winner_from_endgame pr.combat hps sides p2s with
  | some w => w
  | none =>
    match
      (if pr.combat.defeated_players = [] then none
       else winner_from_full_defeat pr.combat.defeated_players tp sides) with
    | some w => w
    | none =>
      match
        (if pr.combat.defeated_players = [] then none
         else winner_from_majority_defeated pr.combat.defeated_players tp sides) with
      | some w => w
      | none => .unknownWinner

/- ## Top-level assembly -/

/-- The `BFME2RPL` magic signature bytes. -/
def MAGIC : List ℕ := [66, 70, 77, 69, 50, 82, 80, 76]

/-- Embedding of the `pn_to_slot` construction: occupied slots enumerate to
player numbers 3, 4, 5, …. -/
def mkPnToSlot (occ : List ℕ) : List (ℕ × ℕ) :=
  go 3 occ
where
  go (i : ℕ) : List ℕ → List (ℕ × ℕ)
    | [] => []
    | s :: rest => (i, s) :: go (i + 1) rest

/-- Apply per-slot build info to the player list: position always, actual
faction only when inferred. -/
def applyBuilds (builds : List (ℕ × BuildInfo)) (players : List Player) :
    List Player :=
  players.map (fun p =>
    match assocFind p.slot builds with
    | some b =>
      let p1 := { p with map_position := some b.position }
      match b.inferred_faction with
      | some f => { p1 with actual_faction := some f }
      | none => p1
    | none => p)

/-- Message of the map-name `ParseError`. -/
def mapNameErrMsg : String := "Could not find map name"

/-- The parsed header table of a buffer. -/
def headerTableOf (data : List ℕ) : HeaderTable :=
  find_players_and_spectators_in data

/-- Header players after color assignment. -/
def coloredPlayersOf (data : List ℕ) : List HeaderPlayer :=
  assign_player_colors (headerTableOf data).players

/-- The buffer's `pn_to_slot` map. -/
def pnToSlotOf (data : List ℕ) : List (ℕ × ℕ) :=
  mkPnToSlot (headerTableOf data).occupied_slots

/-- Everything `parse_replay` does after the error gates (total). -/
def assembleInfo (o : IterOrd) (data : List ℕ) (map_name : List ℕ) :
    ReplayInfo :=
  let start_time := readU32 data 8
  let end_time := readU32 data 12
  let colored := coloredPlayersOf data
  let p2s := pnToSlotOf data
  let players0 := build_players colored
  let spectators := (headerTableOf data).spectators
  match find_chunks_start data with
  | none =>
    ⟨map_name, players0, spectators, some start_time, some end_time,
      .unknownWinner, false, none⟩
  | some s =>
    let pr := parse_and_analyze_chunks o data s colored p2s
    let players1 := applyBuilds pr.positions.player_builds players0
    let team_sides := determine_team_sides players1
    let w0 := determine_winner o pr colored team_sides p2s
    let crashed : Bool :=
      decide (w0 = .unknownWinner) && !pr.combat.has_endgame &&
        pr.combat.defeated_players.isEmpty
    let w := if crashed then Winner.notConcluded else w0
    let dur := if pr.max_timecode > 0 then some (pr.max_timecode / 5) else none
    let players2 := remap_teams_by_side players1 team_sides
    ⟨map_name, players2, spectators, some start_time, some end_time, w,
      crashed, dur⟩

/-- Embedding of `parse_replay`: magic gate, map-name gate, supported-map
gate, no-players gate, then total assembly. -/
def parse_replay (o : IterOrd) (data : List ℕ) :
    Except ReplayError ReplayInfo :=
  if data.length < 8 + 16 ∨ data.take 8 ≠ MAGIC then .error .invalidHeader
  else
    match find_map_name_in data with
    | none => .error (.parseError mapNameErrMsg)
    | some map_name =>
      if ¬ containsWorRhun map_name then .error (.unsupportedMap map_name)
      else if (headerTableOf data).players = [] then .error .noPlayers
      else .ok (assembleInfo o data map_name)

/- ## Concrete test buffers -/

/-- Codepoints of an ASCII string (for ASCII text this equals its byte
encoding). -/
def asciiBytes (s : String) : List ℕ := s.data.map Char.toNat

/-- Header text: supported map plus a two-player table (both colors
unresolved, teams 0 and 1). -/
def hdrTwoStr : String := "M=maps/map wor rhun;S=HA,,,,,,,0:HB,,,,,,,1"

/-- Buffer with a valid header, two players and an empty event stream. -/
def bufCrash : List ℕ :=
  MAGIC ++ List.replicate 8 0 ++ asciiBytes hdrTwoStr ++ [0]

deriving instance DecidableEq for Except

/-- Event-stream bytes: a build chunk (order 1049, Vec3 position
x = 1000.0) for player number 3, one for player number 4 at x = 3000.0,
then a defeated chunk (order 1096) for each, and one trailing pad byte. -/
def chunksTwoDefeats : List ℕ :=
  [100, 0, 0, 0, 25, 4, 0, 0, 3, 0, 0, 0, 1, 6, 1,
   0, 0, 122, 68, 0, 0, 200, 66, 0, 0, 0, 0] ++
  [101, 0, 0, 0, 25, 4, 0, 0, 4, 0, 0, 0, 1, 6, 1,
   0, 128, 59, 69, 0, 0, 200, 66, 0, 0, 0, 0] ++
  [200, 0, 0, 0, 72, 4, 0, 0, 3, 0, 0, 0, 0] ++
  [201, 0, 0, 0, 72, 4, 0, 0, 4, 0, 0, 0, 0] ++
  [0]

/-- Buffer whose stream leaves both teams fully defeated with no end-game
event, with both team sides resolved from build positions. -/
def bufBothDefeated : List ℕ :=
  MAGIC ++ List.replicate 8 0 ++ asciiBytes hdrTwoStr ++ [0] ++ chunksTwoDefeats

/-- Header text with a supported map name but no player-table marker. -/
def hdrNoTableStr : String := "M=maps/map wor rhun;"

/-- Buffer passing the signature check, with a decodable supported map name
and no `;S=` player-table marker. -/
def bufNoTable : List ℕ :=
  MAGIC ++ List.replicate 8 0 ++ asciiBytes hdrNoTableStr

/-- Buffer passing the signature check with no `M=` marker anywhere. -/
def bufNoMap : List ℕ := MAGIC ++ List.replicate 16 255

/-- Header text with two players that both explicitly chose color id 2. -/
def hdrDupColorStr : String := "M=maps/map wor rhun;S=HA,,,,2,,,0:HB,,,,2,,,1"

/-- Buffer whose two players both explicitly chose color id 2. -/
def bufDupColor : List ℕ :=
  MAGIC ++ List.replicate 8 0 ++ asciiBytes hdrDupColorStr ++ [0]

/-- Header text with eleven players: ten explicitly chose the ten palette
colors, the eleventh left its color unresolved. -/
def hdrElevenStr : String :=
  "M=maps/map wor rhun;S=HA,,,,0,,,0:HB,,,,1,,,1:HC,,,,2,,,0:HD,,,,3,,,1:HE,,,,4,,,0:HF,,,,5,,,1:HG,,,,6,,,0:HI,,,,7,,,1:HJ,,,,8,,,0:HK,,,,9,,,1:HL,,,,,,,0"

/-- Buffer with ten explicitly colored players and one unresolved one. -/
def bufEleven : List ℕ :=
  MAGIC ++ List.replicate 8 0 ++ asciiBytes hdrElevenStr ++ [0]

/-- Join slot entries with the `:` separator. -/
def joinColon : List (List ℕ) → List ℕ
  | [] => []
  | [x] => x
  | x :: rest => x ++ 58 :: joinColon rest

/-- One minimal occupied slot entry (name `A`, explicit color 1, team 0). -/
def entrySlotStr : String := "A,,,,1,,,0"

/-- The preamble of the 257-slot buffer. -/
def hdrPrefixStr : String := "M=maps/map wor rhun;S="

/-- Buffer whose player table has 257 occupied slot entries, so the
`as u8` slot cast wraps: entry 256 receives slot 0 again. -/
def bufManySlots : List ℕ :=
  MAGIC ++ List.replicate 8 0 ++ asciiBytes hdrPrefixStr ++
    joinColon (List.replicate 257 (asciiBytes entrySlotStr)) ++ [0]

/- ## Claim C2: error taxonomy for missing markers -/

/-- Codepoints of the extracted map name of the test buffers. -/
def mapWorRhunStr : String := "map wor rhun"

/-- C2 counterexample data: the claim asserts that a valid-signature input
with a decodable supported map name but no player-table marker yields
`ParseError`; on `bufNoTable` the decoder returns `NoPlayers` instead. -/
theorem claim_C2_counterexample :
    (¬ (bufNoTable.length < 24 ∨ bufNoTable.take 8 ≠ MAGIC)) ∧
    find_map_name_in bufNoTable = some (asciiBytes mapWorRhunStr) ∧
    containsWorRhun (asciiBytes mapWorRhunStr) = true ∧
    headerTableOf bufNoTable = ⟨[], [], []⟩ ∧
    parse_replay ordId bufNoTable = .error .noPlayers :=
  ⟨by decide, by decide, by decide, by decide, by decide⟩

/-- C2 (amended): a map-name marker that cannot be located or decoded
yields `ParseError`; a valid signature with a decodable supported map name
but an absent or empty player table yields `NoPlayers`, not `ParseError`. -/
theorem claim_C2_amended :
    (∀ (o : IterOrd) (data : List ℕ),
        ¬ (data.length < 24 ∨ data.take 8 ≠ MAGIC) →
        find_map_name_in data = none →
        parse_replay o data = .error (.parseError mapNameErrMsg)) ∧
    (∀ (o : IterOrd) (data : List ℕ) (m : List ℕ),
        ¬ (data.length < 24 ∨ data.take 8 ≠ MAGIC) →
        find_map_name_in data = some m →
        containsWorRhun m = true →
        (headerTableOf data).players = [] →
        parse_replay o data = .error .noPlayers) := by
  constructor
  · intro o data hmagic hmap
    simp only [parse_replay, hmagic, if_false, hmap]
  · intro o data m hmagic hmap hsup hempty
    simp only [parse_replay, hmagic, if_false, hmap, hsup, hempty]
    simp

/-- C2 witness: both amended branches at concrete buffers. -/
theorem claim_C2_witness :
    parse_replay ordId bufNoMap = .error (.parseError mapNameErrMsg) ∧
    parse_replay ordId bufNoTable = .error .noPlayers :=
  ⟨claim_C2_amended.1 ordId bufNoMap (by decide) (by decide),
   claim_C2_amended.2 ordId bufNoTable (asciiBytes mapWorRhunStr) (by decide)
     (by decide) (by decide) (by decide)⟩

/- ## Claim C6: end-game precedence -/

/-- C6: an end-game event whose player number resolves through slot,
header player and team side forces that side's certain winner regardless
of the defeated-set; and the shared recording rule keeps the event with
the latest timecode, a later-or-equal timecode overwriting the record. -/
theorem claim_C6_endgame_precedence :
    (∀ (o : IterOrd) (pr : ChunkParseResult) (hps : List HeaderPlayer)
        (sides : List (ℤ × Side)) (p2s : List (ℕ × ℕ)) (pn slot : ℕ)
        (hp : HeaderPlayer) (s : Side),
        pr.combat.endgame_player = some pn →
        assocFind pn p2s = some slot →
        hps.find? (fun q => q.slot == slot) = some hp →
        assocFind hp.team_raw sides = some s →
        determine_winner o pr hps sides p2s = side_to_winner s) ∧
    (∀ (c : CombatResult) (pn tc : ℕ),
        (recordEndgame c pn tc).has_endgame = true ∧
        ((c.has_endgame = false ∨ c.endgame_timecode ≤ tc) →
          (recordEndgame c pn tc).endgame_player = some pn ∧
          (recordEndgame c pn tc).endgame_timecode = tc) ∧
        ((c.has_endgame = true ∧ tc < c.endgame_timecode) →
          (recordEndgame c pn tc).endgame_player = c.endgame_player ∧
          (recordEndgame c pn tc).endgame_timecode = c.endgame_timecode)) := by
  constructor
  · intro o pr hps sides p2s pn slot hp s h1 h2 h3 h4
    have he : winner_from_endgame pr.combat hps sides p2s =
        some (side_to_winner s) := by
      simp [winner_from_endgame, h1, h2, h3, h4]
    simp [determine_winner, he]
  · intro c pn tc
    refine ⟨?_, ?_, ?_⟩
    · by_cases h : (!c.has_endgame || decide (c.endgame_timecode ≤ tc)) = true <;>
        simp [recordEndgame, h]
    · intro h
      have hcond : (!c.has_endgame || decide (c.endgame_timecode ≤ tc)) = true := by
        rcases h with h | h
        · simp [h]
        · simp [h]
      simp [recordEndgame, hcond]
    · intro h
      have hcond : (!c.has_endgame || decide (c.endgame_timecode ≤ tc)) = false := by
        simp [h.1, Nat.not_le.mpr h.2]
      simp [recordEndgame, hcond]

/-- C6 witness: a concrete end-game record beats a fully defeated set, and
the recording rule at concrete timecodes. -/
theorem claim_C6_witness :
    determine_winner ordId
        ⟨⟨[], [], []⟩, ⟨[3, 4], some 3, 50, true⟩, 50⟩
        [⟨[65], none, 0, -1, 0, 0⟩] [(0, .left)] [(3, 0)] =
      side_to_winner .left ∧
    (recordEndgame ⟨[], some 9, 40, true⟩ 5 40).endgame_player = some 5 :=
  ⟨claim_C6_endgame_precedence.1 ordId
      ⟨⟨[], [], []⟩, ⟨[3, 4], some 3, 50, true⟩, 50⟩
      [⟨[65], none, 0, -1, 0, 0⟩] [(0, .left)] [(3, 0)] 3 0
      ⟨[65], none, 0, -1, 0, 0⟩ .left (by decide) (by decide) (by decide)
      (by decide),
   ((claim_C6_endgame_precedence.2 ⟨[], some 9, 40, true⟩ 5 40).2.1
      (Or.inr (by decide))).1⟩

/- ## Claim C7: resynchronization scanner guards -/

/-- The raw scan loop equals a left fold of the per-position step over the
scanned index range. -/
theorem rawScanLoop_eq_foldl (data : List ℕ) (cs : ℕ) (pns : List ℕ) :
    ∀ (fuel i : ℕ) (c : CombatResult), data.length - 3 - i ≤ fuel →
      rawScanLoop data cs pns fuel i c =
        (List.range' i (data.length - 3 - i)).foldl (rawScanStep data cs pns) c := by
  intro fuel
  induction fuel with
  | zero =>
    intro i c h
    have h0 : data.length - 3 - i = 0 := Nat.le_zero.mp h
    simp [rawScanLoop, h0]
  | succ n ih =>
    intro i c h
    by_cases hi : i < data.length - 3
    · have hn : data.length - 3 - i = (data.length - 3 - (i + 1)) + 1 := by omega
      rw [rawScanLoop, if_pos hi, ih (i + 1) _ (by omega), hn,
        List.range'_succ]
      rfl
    · have h0 : data.length - 3 - i = 0 := by omega
      rw [rawScanLoop, if_neg hi]
      simp [h0]

/-- C7: at an in-window pattern match, the scanner accepts the recovered
event exactly when the four guards hold — timecode strictly between 0 and
10,000,000, player number within 3–20 inclusive, argument-type count at
most 10, and membership in the valid player-number set; an accepted
defeated event is unioned into the defeated-set, an accepted end-game
event goes through the latest-timecode rule. The whole scan is the fold of
this step over every byte position of the stream region. -/
theorem claim_C7_raw_scan :
    (∀ (data : List ℕ) (cs : ℕ) (pns : List ℕ) (c : CombatResult) (i cmd : ℕ),
        rawPatternAt data i = some cmd →
        cs + 4 ≤ i → i + 9 ≤ data.length →
        rawScanStep data cs pns c i =
          (if (0 < readU32 data (i - 4) ∧ readU32 data (i - 4) < 10000000) ∧
              (3 ≤ readU32 data (i + 4) ∧ readU32 data (i + 4) ≤ 20) ∧
              data.getD (i + 8) 0 ≤ 10 ∧ readU32 data (i + 4) ∈ pns then
            (if cmd = 1096 then
              { c with defeated_players :=
                  natSetInsert (readU32 data (i + 4)) c.defeated_players }
            else recordEndgame c (readU32 data (i + 4)) (readU32 data (i - 4)))
          else c)) ∧
    (∀ (data : List ℕ) (cs : ℕ) (pns : List ℕ) (c : CombatResult),
        cs + 8 ≤ data.length →
        raw_scan_for_critical_events data cs pns c =
          (List.range' cs (data.length - 3 - cs)).foldl
            (rawScanStep data cs pns) c) := by
  constructor
  · intro data cs pns c i cmd hpat h4 h9
    have hi4 : 4 ≤ i := le_trans (Nat.le_add_left 4 cs) h4
    have hco8 : i - 4 + 8 = i + 4 := by omega
    have hco12 : i - 4 + 12 = i + 8 := by omega
    have hco13 : i - 4 + 13 ≤ data.length := by omega
    rw [rawScanStep, hpat]
    simp only [if_pos h4, hco8, hco12, if_pos hco13]
  · intro data cs pns c h
    rw [raw_scan_for_critical_events, if_neg (by omega)]
    exact rawScanLoop_eq_foldl data cs pns data.length cs c (by omega)

/-- C7 witness: a concrete accepted defeated event and a concrete scan. -/
theorem claim_C7_witness :
    rawScanStep [1, 0, 0, 0, 72, 4, 0, 0, 3, 0, 0, 0, 0] 0 [3]
        ⟨[], none, 0, false⟩ 4 = ⟨[3], none, 0, false⟩ ∧
    raw_scan_for_critical_events [1, 0, 0, 0, 72, 4, 0, 0, 3, 0, 0, 0, 0] 0 [3]
        ⟨[], none, 0, false⟩ =
      (List.range' 0 10).foldl
        (rawScanStep [1, 0, 0, 0, 72, 4, 0, 0, 3, 0, 0, 0, 0] 0 [3])
        ⟨[], none, 0, false⟩ :=
  ⟨(claim_C7_raw_scan.1 [1, 0, 0, 0, 72, 4, 0, 0, 3, 0, 0, 0, 0] 0 [3]
      ⟨[], none, 0, false⟩ 4 1096 (by decide) (by decide) (by decide)).trans
    (by decide),
   (claim_C7_raw_scan.2 [1, 0, 0, 0, 72, 4, 0, 0, 3, 0, 0, 0, 0] 0 [3]
      ⟨[], none, 0, false⟩ (by decide))⟩

/- ## Claim C5: crash detection -/

/-- The invariant connecting the end-game flag with the stored player: no
recorded event means no stored player. -/

def combatInv (c : CombatResult) : Prop :=
  c.has_endgame = false → c.endgame_player = none

/-- The recording rule always sets the flag. -/
theorem recordEndgame_has (c : CombatResult) (pn tc : ℕ) :
    (recordEndgame c pn tc).has_endgame = true := by
  unfold recordEndgame; split <;> rfl

/-- One decode step preserves the end-game invariant. -/
theorem analyzeChunkStep_inv (hps : List HeaderPlayer) (p2s : List (ℕ × ℕ))
    (st : AnalyzeState) (ck : Chunk) (h : combatInv st.combat) :
    combatInv (analyzeChunkStep hps p2s st ck).combat := by
  unfold combatInv at *
  simp only [analyzeChunkStep]
  repeat' split
  all_goals dsimp only
  all_goals intro hhas
  all_goals first
    | exact h hhas
    | (exfalso; revert hhas; simp [recordEndgame_has])

/-- The decode loop preserves the end-game invariant. -/
theorem analyzeLoop_inv (data : List ℕ) (hps : List HeaderPlayer)
    (p2s : List (ℕ × ℕ)) :
    ∀ (fuel pos : ℕ) (st : AnalyzeState), combatInv st.combat →
      combatInv (analyzeLoop data hps p2s fuel pos st).combat := by
  intro fuel
  induction fuel with
  | zero => intro pos st h; exact h
  | succ n ih =>
    intro pos st h
    rw [analyzeLoop]
    split
    · split
      · exact ih _ _ (analyzeChunkStep_inv hps p2s st _ h)
      · exact ih _ _ h
    · exact h

/-- One raw-scan step preserves the end-game invariant. -/
theorem rawScanStep_inv (data : List ℕ) (cs : ℕ) (pns : List ℕ)
    (c : CombatResult) (i : ℕ) (h : combatInv c) :
    combatInv (rawScanStep data cs pns c i) := by
  unfold combatInv at *
  simp only [rawScanStep]
  repeat' split
  all_goals try dsimp only
  all_goals intro hhas
  all_goals first
    | exact h hhas
    | (exfalso; revert hhas; simp [recordEndgame_has])

/-- The raw-scan loop preserves the end-game invariant. -/
theorem rawScanLoop_inv (data : List ℕ) (cs : ℕ) (pns : List ℕ) :
    ∀ (fuel i : ℕ) (c : CombatResult), combatInv c →
      combatInv (rawScanLoop data cs pns fuel i c) := by
  intro fuel
  induction fuel with
  | zero => intro i c h; exact h
  | succ n ih =>
    intro i c h
    rw [rawScanLoop]
    split
    · exact ih _ _ (rawScanStep_inv data cs pns c i h)
    · exact h

/-- The combined decode (structured loop plus raw scan) satisfies the
end-game invariant. -/
theorem parse_and_analyze_inv (o : IterOrd) (data : List ℕ) (s : ℕ)
    (hps : List HeaderPlayer) (p2s : List (ℕ × ℕ)) :
    combatInv (parse_and_analyze_chunks o data s hps p2s).combat := by
  have h0 : combatInv initAnalyzeState.combat := fun _ => rfl
  have h1 := analyzeLoop_inv data hps p2s (data.length + 1) s initAnalyzeState h0
  unfold parse_and_analyze_chunks
  dsimp only
  unfold raw_scan_for_critical_events
  split
  · exact h1
  · exact rawScanLoop_inv data s _ data.length s _ h1

/-- With no end-game record and an empty defeated-set every winner
strategy yields nothing. -/
theorem determine_winner_no_events (o : IterOrd) (pr : ChunkParseResult)
    (hps : List HeaderPlayer) (sides : List (ℤ × Side)) (p2s : List (ℕ × ℕ))
    (hp : pr.combat.endgame_player = none)
    (hd : pr.combat.defeated_players = []) :
    determine_winner o pr hps sides p2s = .unknownWinner := by
  have he : winner_from_endgame pr.combat hps sides p2s = none := by
    simp [winner_from_endgame, hp]
  simp [determine_winner, he, hd]

/-- A successful decode passes every gate and returns the assembled
record. -/
theorem parse_ok_structure (o : IterOrd) (data : List ℕ) (info : ReplayInfo)
    (h : parse_replay o data = .ok info) :
    ∃ m, find_map_name_in data = some m ∧ info = assembleInfo o data m := by
  unfold parse_replay at h
  by_cases h1 : (data.length < 8 + 16 ∨ data.take 8 ≠ MAGIC)
  · rw [if_pos h1] at h; cases h
  · rw [if_neg h1] at h
    cases hm : find_map_name_in data with
    | none => rw [hm] at h; cases h
    | some m =>
      rw [hm] at h
      dsimp only at h
      by_cases h2 : ¬ containsWorRhun m = true
      · rw [if_pos h2] at h; cases h
      · rw [if_neg h2] at h
        by_cases h3 : (headerTableOf data).players = []
        · rw [if_pos h3] at h; cases h
        · rw [if_neg h3] at h
          exact ⟨m, rfl, (Except.ok.inj h).symm⟩

/-- C5: for every buffer that decodes successfully and has a stream-start
offset, the crash flag is set exactly when the combined decode (structured
decoder plus raw scanner) observed no end-game event and no defeated
player, and in that case the winner is forced to `NotConcluded`. -/
theorem claim_C5_crash :
    ∀ (o : IterOrd) (data : List ℕ) (info : ReplayInfo) (s : ℕ),
      parse_replay o data = .ok info →
      find_chunks_start data = some s →
      (info.game_crashed =
        (!(parse_and_analyze_chunks o data s (coloredPlayersOf data)
            (pnToSlotOf data)).combat.has_endgame &&
          (parse_and_analyze_chunks o data s (coloredPlayersOf data)
            (pnToSlotOf data)).combat.defeated_players.isEmpty)) ∧
      ((parse_and_analyze_chunks o data s (coloredPlayersOf data)
          (pnToSlotOf data)).combat.has_endgame = false →
        (parse_and_analyze_chunks o data s (coloredPlayersOf data)
          (pnToSlotOf data)).combat.defeated_players = [] →
        info.winner = .notConcluded ∧ info.game_crashed = true) := by
  intro o data info s hok hs
  obtain ⟨m, hm, hinfo⟩ := parse_ok_structure o data info hok
  subst hinfo
  have hinv := parse_and_analyze_inv o data s (coloredPlayersOf data)
    (pnToSlotOf data)
  unfold assembleInfo
  rw [hs]
  dsimp only
  by_cases hcase : (parse_and_analyze_chunks o data s (coloredPlayersOf data)
      (pnToSlotOf data)).combat.has_endgame = false ∧
      (parse_and_analyze_chunks o data s (coloredPlayersOf data)
        (pnToSlotOf data)).combat.defeated_players = []
  · have hpl := hinv hcase.1
    have hw := determine_winner_no_events o _ (coloredPlayersOf data)
      (determine_team_sides (applyBuilds
        (parse_and_analyze_chunks o data s (coloredPlayersOf data)
          (pnToSlotOf data)).positions.player_builds
        (build_players (coloredPlayersOf data))))
      (pnToSlotOf data) hpl hcase.2
    rw [hw]
    constructor
    · simp [hcase.1, hcase.2]
    · intro h1 h2
      simp [hcase.1, hcase.2]
  · have hfalse : (!(parse_and_analyze_chunks o data s (coloredPlayersOf data)
        (pnToSlotOf data)).combat.has_endgame &&
        (parse_and_analyze_chunks o data s (coloredPlayersOf data)
          (pnToSlotOf data)).combat.defeated_players.isEmpty) = false := by
      cases hhas : (parse_and_analyze_chunks o data s (coloredPlayersOf data)
          (pnToSlotOf data)).combat.has_endgame
      · have hdne : (parse_and_analyze_chunks o data s (coloredPlayersOf data)
            (pnToSlotOf data)).combat.defeated_players ≠ [] := by
          intro hd
          exact hcase ⟨hhas, hd⟩
        simp [List.isEmpty_iff, hdne]
      · simp
    constructor
    · rw [hfalse]
      simp
      intro _ h1
      exact fun h2 => hcase ⟨h1, h2⟩
    · intro h1 h2
      exact absurd ⟨h1, h2⟩ hcase

/-- C5 witness: the concrete two-player buffer with an empty stream
decodes to a crashed, not-concluded result. -/
theorem claim_C5_witness :
    (assembleInfo ordId bufCrash (asciiBytes mapWorRhunStr)).winner =
      .notConcluded ∧
    (assembleInfo ordId bufCrash (asciiBytes mapWorRhunStr)).game_crashed =
      true :=
  (claim_C5_crash ordId bufCrash
    (assembleInfo ordId bufCrash (asciiBytes mapWorRhunStr)) bufCrash.length
    (by decide) (by decide)).2 (by decide) (by decide)

/- ## Claim C8: chunk rejection and resynchronization -/

/-- Total byte size of the arguments described by `n` descriptors starting
at `pos` (count times per-type width, widths from the fixed table). -/
def sigTotalSize (data : List ℕ) : ℕ → ℕ → ℕ
  | 0, _ => 0
  | n + 1, pos =>
    data.getD (pos + 1) 0 * get_arg_size (data.getD pos 0) +
      sigTotalSize data n (pos + 2)

/-- Total byte size of a decoded descriptor list. -/
def totalSize (sig : List (ℕ × ℕ)) : ℕ :=
  (sig.map (fun e => e.2 * get_arg_size e.1)).sum

/-- Modelled from the spec sentence for C8 (the refutation side of the
refinement): a chunk at `offset` is rejected when the timecode exceeds
10,000,000, the player-number exceeds 100, the argument-type count exceeds
100, an individual argument count exceeds 50, or any field, descriptor or
argument read would exceed the buffer bound. -/
def chunkRejects (data : List ℕ) (offset : ℕ) : Prop :=
  offset + 13 > data.length ∨
  readU32 data offset > 10000000 ∨
  readU32 data (offset + 8) > 100 ∨
  data.getD (offset + 12) 0 > 100 ∨
  (∃ i, i < data.getD (offset + 12) 0 ∧
    (offset + 13 + 2 * i + 2 > data.length ∨
      data.getD (offset + 13 + 2 * i + 1) 0 > 50)) ∨
  offset + 13 + 2 * data.getD (offset + 12) 0 +
      sigTotalSize data (data.getD (offset + 12) 0) (offset + 13) >
    data.length

/-- Every argument width is positive. -/
theorem get_arg_size_pos (t : ℕ) : 1 ≤ get_arg_size t := by
  unfold get_arg_size
  repeat' split
  all_goals omega

/-- Descriptor reading fails exactly when some descriptor is out of bounds
or carries a count above 50. -/
theorem readArgSig_none_iff (data : List ℕ) :
    ∀ (n pos : ℕ),
      readArgSig data n pos = none ↔
        ∃ i, i < n ∧ (pos + 2 * i + 2 > data.length ∨
          data.getD (pos + 2 * i + 1) 0 > 50) := by
  intro n
  induction n with
  | zero => intro pos; simp [readArgSig]
  | succ m ih =>
    intro pos
    rw [readArgSig]
    by_cases h1 : pos + 2 > data.length
    · rw [if_pos h1]
      simp only [true_iff]
      exact ⟨0, by omega, Or.inl (by omega)⟩
    · rw [if_neg h1]
      by_cases h2 : data.getD (pos + 1) 0 > 50
      · rw [if_pos h2]
        simp only [true_iff]
        exact ⟨0, by omega, Or.inr (by simpa using h2)⟩
      · rw [if_neg h2]
        rw [Option.map_eq_none', ih (pos + 2)]
        constructor
        · rintro ⟨i, hi, hbad⟩
          exact ⟨i + 1, by omega, by
            rcases hbad with hb | hb
            · exact Or.inl (by omega)
            · exact Or.inr (by convert hb using 3; omega)⟩
        · rintro ⟨i, hi, hbad⟩
          cases i with
          | zero =>
            exfalso
            rcases hbad with hb | hb
            · exact h1 (by omega)
            · exact h2 (by simpa using hb)
          | succ j =>
            exact ⟨j, by omega, by
              rcases hbad with hb | hb
              · exact Or.inl (by omega)
              · exact Or.inr (by convert hb using 3; omega)⟩

/-- A successful descriptor read ends right after the table and its total
argument size is the raw-byte total. -/
theorem readArgSig_some (data : List ℕ) :
    ∀ (n pos : ℕ) (sig : List (ℕ × ℕ)) (q : ℕ),
      readArgSig data n pos = some (sig, q) →
      q = pos + 2 * n ∧ totalSize sig = sigTotalSize data n pos := by
  intro n
  induction n with
  | zero =>
    intro pos sig q h
    simp [readArgSig] at h
    obtain ⟨h1, h2⟩ := h
    subst h1; subst h2
    simp [totalSize, sigTotalSize]
  | succ m ih =>
    intro pos sig q h
    rw [readArgSig] at h
    by_cases h1 : pos + 2 > data.length
    · rw [if_pos h1] at h; cases h
    · rw [if_neg h1] at h
      by_cases h2 : data.getD (pos + 1) 0 > 50
      · rw [if_pos h2] at h; cases h
      · rw [if_neg h2] at h
        cases hrec : readArgSig data m (pos + 2) with
        | none => rw [hrec] at h; cases h
        | some r =>
          rw [hrec] at h
          obtain ⟨sig1, q1⟩ := r
          rw [Option.map_some'] at h
          have h' := Option.some.inj h
          have hsig := congrArg Prod.fst h'
          have hq := congrArg Prod.snd h'
          simp only at hsig hq
          obtain ⟨hq1, hts⟩ := ih (pos + 2) sig1 q1 hrec
          constructor
          · omega
          · rw [← hsig]
            rw [sigTotalSize]
            simp only [totalSize, List.map_cons, List.sum_cons] at *
            omega

/-- Reading `c` equal-width arguments fails exactly when they would pass
the end of the buffer. -/
theorem readArgsCount_none_iff (data : List ℕ) (t s : ℕ) (hs : 1 ≤ s) :
    ∀ (c pos : ℕ), pos ≤ data.length →
      (readArgsCount data t s c pos = none ↔ pos + c * s > data.length) := by
  intro c
  induction c with
  | zero =>
    intro pos hpos
    simp [readArgsCount]
    omega
  | succ m ih =>
    intro pos hpos
    rw [readArgsCount]
    by_cases h1 : pos + s > data.length
    · rw [if_pos h1]
      simp only [true_iff]
      have : 1 * s ≤ (m + 1) * s := Nat.mul_le_mul_right s (by omega)
      omega
    · rw [if_neg h1]
      rw [Option.map_eq_none', ih (pos + s) (by omega)]
      constructor <;> intro hh
      · have : (m + 1) * s = m * s + s := by ring
        omega
      · have : (m + 1) * s = m * s + s := by ring
        omega

/-- A successful equal-width argument read advances by count times
width. -/
theorem readArgsCount_some (data : List ℕ) (t s : ℕ) :
    ∀ (c pos : ℕ) (args : List ChunkArg) (q : ℕ),
      readArgsCount data t s c pos = some (args, q) →
      q = pos + c * s := by
  intro c
  induction c with
  | zero =>
    intro pos args q h
    simp [readArgsCount] at h
    omega
  | succ m ih =>
    intro pos args q h
    rw [readArgsCount] at h
    by_cases h1 : pos + s > data.length
    · rw [if_pos h1] at h; cases h
    · rw [if_neg h1] at h
      cases hrec : readArgsCount data t s m (pos + s) with
      | none => rw [hrec] at h; cases h
      | some r =>
        rw [hrec, Option.map_some'] at h
        have hq := congrArg Prod.snd (Option.some.inj h)
        simp only at hq
        have := ih (pos + s) r.1 r.2 hrec
        have hms : (m + 1) * s = m * s + s := by ring
        omega

/-- Reading all arguments fails exactly when their total size passes the
end of the buffer. -/
theorem readArgs_none_iff (data : List ℕ) :
    ∀ (sig : List (ℕ × ℕ)) (pos : ℕ), pos ≤ data.length →
      (readArgs data sig pos = none ↔ pos + totalSize sig > data.length) := by
  intro sig
  induction sig with
  | nil =>
    intro pos hpos
    simp [readArgs, totalSize]
    omega
  | cons e rest ih =>
    intro pos hpos
    obtain ⟨t, c⟩ := e
    rw [readArgs]
    have hs := get_arg_size_pos t
    have htot : totalSize ((t, c) :: rest) = c * get_arg_size t + totalSize rest := by
      simp [totalSize]
    by_cases h1 : pos + c * get_arg_size t > data.length
    · have hcn : readArgsCount data t (get_arg_size t) c pos = none :=
        (readArgsCount_none_iff data t (get_arg_size t) hs c pos hpos).mpr h1
      rw [hcn]
      simp only [Option.none_bind, true_iff]
      omega
    · have hcs : ∃ r, readArgsCount data t (get_arg_size t) c pos = some r := by
        cases hc : readArgsCount data t (get_arg_size t) c pos with
        | none =>
          exact absurd ((readArgsCount_none_iff data t (get_arg_size t) hs c pos hpos).mp hc) h1
        | some r => exact ⟨r, rfl⟩
      obtain ⟨r, hr⟩ := hcs
      have hq : r.2 = pos + c * get_arg_size t := by
        obtain ⟨a, q⟩ := r
        exact readArgsCount_some data t (get_arg_size t) c pos a q hr
      rw [hr]
      simp only [Option.some_bind]
      rw [Option.map_eq_none', ih r.2 (by omega)]
      omega

/-- A successful full argument read ends right after the last
argument. -/
theorem readArgs_some (data : List ℕ) :
    ∀ (sig : List (ℕ × ℕ)) (pos : ℕ) (args : List ChunkArg) (q : ℕ),
      readArgs data sig pos = some (args, q) →
      q = pos + totalSize sig := by
  intro sig
  induction sig with
  | nil =>
    intro pos args q h
    simp [readArgs] at h
    simp [totalSize]
    omega
  | cons e rest ih =>
    intro pos args q h
    obtain ⟨t, c⟩ := e
    rw [readArgs] at h
    cases hc : readArgsCount data t (get_arg_size t) c pos with
    | none => rw [hc] at h; cases h
    | some r =>
      rw [hc] at h
      simp only [Option.some_bind] at h
      cases hrec : readArgs data rest r.2 with
      | none => rw [hrec] at h; cases h
      | some r2 =>
        rw [hrec, Option.map_some'] at h
        have hq := congrArg Prod.snd (Option.some.inj h)
        simp only at hq
        have h1 := readArgsCount_some data t (get_arg_size t) c pos r.1 r.2 (by
          cases r; exact hc)
        have h2 := ih r.2 r2.1 r2.2 (by cases r2; exact hrec)
        have htot : totalSize ((t, c) :: rest) = c * get_arg_size t + totalSize rest := by
          simp [totalSize]
        omega

/-- A successful descriptor read never passes the end of the buffer. -/
theorem readArgSig_some_le (data : List ℕ) :
    ∀ (n pos : ℕ) (sig : List (ℕ × ℕ)) (q : ℕ), pos ≤ data.length →
      readArgSig data n pos = some (sig, q) → q ≤ data.length := by
  intro n
  induction n with
  | zero =>
    intro pos sig q hpos h
    simp [readArgSig] at h
    omega
  | succ m ih =>
    intro pos sig q hpos h
    rw [readArgSig] at h
    by_cases h1 : pos + 2 > data.length
    · rw [if_pos h1] at h; cases h
    · rw [if_neg h1] at h
      by_cases h2 : data.getD (pos + 1) 0 > 50
      · rw [if_pos h2] at h; cases h
      · rw [if_neg h2] at h
        cases hrec : readArgSig data m (pos + 2) with
        | none => rw [hrec] at h; cases h
        | some r =>
          rw [hrec, Option.map_some'] at h
          have hq := congrArg Prod.snd (Option.some.inj h)
          simp only at hq
          have := ih (pos + 2) r.1 r.2 (by omega) (by cases r; exact hrec)
          omega

/-- The decode-failure characterization of `parse_chunk`. -/
theorem parse_chunk_none_iff (data : List ℕ) (offset : ℕ) :
    parse_chunk data offset = none ↔ chunkRejects data offset := by
  rw [parse_chunk]
  by_cases hb : offset + 13 > data.length
  · rw [if_pos hb]
    simp only [true_iff]
    exact Or.inl hb
  · rw [if_neg hb]
    by_cases hsan : readU32 data offset > 10000000 ∨
        readU32 data (offset + 8) > 100 ∨ data.getD (offset + 12) 0 > 100
    · rw [if_pos hsan]
      simp only [true_iff]
      rcases hsan with h | h | h
      · exact Or.inr (Or.inl h)
      · exact Or.inr (Or.inr (Or.inl h))
      · exact Or.inr (Or.inr (Or.inr (Or.inl h)))
    · rw [if_neg hsan]
      push_neg at hsan
      obtain ⟨hs1, hs2, hs3⟩ := hsan
      cases hsig : readArgSig data (data.getD (offset + 12) 0) (offset + 13) with
      | none =>
        simp only [Option.none_bind, true_iff]
        have := (readArgSig_none_iff data (data.getD (offset + 12) 0)
          (offset + 13)).mp hsig
        exact Or.inr (Or.inr (Or.inr (Or.inr (Or.inl this))))
      | some r =>
        obtain ⟨sig, q⟩ := r
        obtain ⟨hq, hts⟩ := readArgSig_some data _ _ sig q hsig
        have hqle : q ≤ data.length :=
          readArgSig_some_le data _ _ sig q (by omega) hsig
        simp only [Option.some_bind]
        rw [Option.map_eq_none', readArgs_none_iff data sig q hqle]
        constructor
        · intro hh
          refine Or.inr (Or.inr (Or.inr (Or.inr (Or.inr ?_))))
          omega
        · intro hh
          rcases hh with h | h | h | h | h | h
          · omega
          · omega
          · omega
          · omega
          · exfalso
            have hnone : readArgSig data (data.getD (offset + 12) 0)
                (offset + 13) ≠ none := by rw [hsig]; simp
            exact hnone ((readArgSig_none_iff data
              (data.getD (offset + 12) 0) (offset + 13)).mpr h)
          · omega

/-- A successful chunk decode returns the offset of the byte directly
after the last argument. -/
theorem parse_chunk_some_next (data : List ℕ) (offset q : ℕ) (ck : Chunk)
    (h : parse_chunk data offset = some (q, ck)) :
    q = offset + 13 + 2 * data.getD (offset + 12) 0 +
      sigTotalSize data (data.getD (offset + 12) 0) (offset + 13) := by
  rw [parse_chunk] at h
  by_cases hb : offset + 13 > data.length
  · rw [if_pos hb] at h; cases h
  · rw [if_neg hb] at h
    by_cases hsan : readU32 data offset > 10000000 ∨
        readU32 data (offset + 8) > 100 ∨ data.getD (offset + 12) 0 > 100
    · rw [if_pos hsan] at h; cases h
    · rw [if_neg hsan] at h
      cases hsig : readArgSig data (data.getD (offset + 12) 0) (offset + 13) with
      | none => rw [hsig] at h; cases h
      | some r =>
        obtain ⟨sig, q1⟩ := r
        rw [hsig] at h
        simp only [Option.some_bind] at h
        cases hargs : readArgs data sig q1 with
        | none => rw [hargs] at h; cases h
        | some r2 =>
          rw [hargs, Option.map_some'] at h
          have hqq := congrArg Prod.fst (Option.some.inj h)
          simp only at hqq
          obtain ⟨hq1, hts⟩ := readArgSig_some data _ _ sig q1 hsig
          have := readArgs_some data sig q1 r2.1 r2.2 (by cases r2; exact hargs)
          omega

/-- The rejection predicate is decidable. -/
instance chunkRejects_dec (data : List ℕ) (offset : ℕ) :
    Decidable (chunkRejects data offset) := by
  unfold chunkRejects
  infer_instance

/-- C8: one chunk decode fails exactly when the timecode, player-number,
argument-type-count or per-argument-count limits are exceeded or a read
would pass the end of the buffer; on failure the decode loop's next scan
position is exactly one byte forward, on success it is the byte directly
after the last argument. -/
theorem claim_C8_chunk_reject_and_resync (data : List ℕ) (offset : ℕ) :
    (parse_chunk data offset = none ↔ chunkRejects data offset) ∧
    chunkLoopNext data offset =
      (if chunkRejects data offset then offset + 1
       else offset + 13 + 2 * data.getD (offset + 12) 0 +
         sigTotalSize data (data.getD (offset + 12) 0) (offset + 13)) := by
  refine ⟨parse_chunk_none_iff data offset, ?_⟩
  by_cases hrej : chunkRejects data offset
  · rw [if_pos hrej]
    have := (parse_chunk_none_iff data offset).mpr hrej
    rw [chunkLoopNext, this]
  · rw [if_neg hrej]
    cases hp : parse_chunk data offset with
    | none => exact absurd ((parse_chunk_none_iff data offset).mp hp) hrej
    | some r =>
      rw [chunkLoopNext, hp]
      exact parse_chunk_some_next data offset r.1 r.2 (by cases r; exact hp)

/- ## Claims C3 and C4: color uniqueness and resolution -/

/-- The ten palette ids as integers. -/
def rangeTenInt : List ℤ := [0, 1, 2, 3, 4, 5, 6, 7, 8, 9]

/-- Membership characterization for the palette id list. -/
theorem mem_rangeTenInt {a : ℤ} : a ∈ rangeTenInt ↔ 0 ≤ a ∧ a < 10 := by
  constructor
  · intro ha
    have h' : a = 0 ∨ a = 1 ∨ a = 2 ∨ a = 3 ∨ a = 4 ∨ a = 5 ∨ a = 6 ∨
        a = 7 ∨ a = 8 ∨ a = 9 := by simpa [rangeTenInt] using ha
    rcases h' with rfl | rfl | rfl | rfl | rfl | rfl | rfl | rfl | rfl | rfl <;>
      norm_num
  · intro hb
    have h' : a = 0 ∨ a = 1 ∨ a = 2 ∨ a = 3 ∨ a = 4 ∨ a = 5 ∨ a = 6 ∨
        a = 7 ∨ a = 8 ∨ a = 9 := by omega
    rcases h' with rfl | rfl | rfl | rfl | rfl | rfl | rfl | rfl | rfl | rfl <;>
      simp [rangeTenInt]

/-- Number of palette ids (0–9) already present in the used set. -/
def usedResCount (used : List ℤ) : ℕ :=
  (rangeTenInt.filter (fun c => decide (c ∈ used))).length

/-- Fewer than ten used palette ids leave a free one. -/
theorem usedResCount_lt_exists (used : List ℤ) (h : usedResCount used < 10) :
    ∃ r : ℤ, 0 ≤ r ∧ r < 10 ∧ r ∉ used := by
  by_contra hall
  push_neg at hall
  have hfull : rangeTenInt.filter (fun c => decide (c ∈ used)) = rangeTenInt := by
    apply List.filter_eq_self.mpr
    intro a ha
    have hb := mem_rangeTenInt.mp ha
    exact decide_eq_true (hall a hb.1 hb.2)
  have h10 : usedResCount used = 10 := by
    rw [usedResCount, hfull]
    decide
  omega

/-- Inserting a fresh in-range id raises the used-palette count by one. -/
theorem usedResCount_cons (used : List ℤ) (c : ℤ) (h0 : 0 ≤ c) (h10 : c < 10)
    (hnot : c ∉ used) : usedResCount (c :: used) = usedResCount used + 1 := by
  have hgen : ∀ (l : List ℤ), l.Nodup → c ∈ l →
      (l.filter (fun x => decide (x ∈ c :: used))).length =
        (l.filter (fun x => decide (x ∈ used))).length + 1 := by
    intro l
    induction l with
    | nil => intro _ hc; cases hc
    | cons a rest ih =>
      intro hnd hc
      rw [List.nodup_cons] at hnd
      by_cases hac : a = c
      · subst hac
        have hres : rest.filter (fun x => decide (x ∈ a :: used)) =
            rest.filter (fun x => decide (x ∈ used)) := by
          apply List.filter_congr
          intro x hx
          have hxa : x ≠ a := fun he => hnd.1 (he ▸ hx)
          simp [List.mem_cons, hxa]
        simp only [List.filter_cons]
        rw [hres]
        have h1 : decide (a ∈ a :: used) = true := by simp
        have h2 : decide (a ∈ used) = false := by simpa using hnot
        rw [h1, h2]
        simp
      · have hc' : c ∈ rest := by
          cases hc with
          | head => exact absurd rfl hac
          | tail _ hh => exact hh
        simp only [List.filter_cons]
        have hsame : decide (a ∈ c :: used) = decide (a ∈ used) := by
          simp [List.mem_cons, hac]
        rw [hsame]
        cases hd : decide (a ∈ used) with
        | true => simpa using ih hnd.2 hc'
        | false => simpa using ih hnd.2 hc'
  have hnodup : rangeTenInt.Nodup := by decide
  have hcmem : c ∈ rangeTenInt := mem_rangeTenInt.mpr ⟨h0, h10⟩
  exact hgen rangeTenInt hnodup hcmem

/-- A picked color is an unused palette id. -/
theorem pickColor_some_spec (used : List ℤ) (next : ℤ) (c : ℤ)
    (h : pickColor used next = some c) :
    0 ≤ c ∧ c < 10 ∧ c ∉ used := by
  have hp := List.find?_some h
  have hm := List.mem_of_find?_eq_some h
  simp only [List.mem_map, List.mem_range] at hm
  obtain ⟨off, _, rfl⟩ := hm
  refine ⟨Int.emod_nonneg _ (by norm_num), Int.emod_lt_of_pos _ (by norm_num), ?_⟩
  simpa using hp

/-- The ten-id wrap-around scan finds a color whenever one is free. -/
theorem pickColor_isSome (used : List ℤ) (next : ℤ)
    (h : usedResCount used < 10) : ∃ c, pickColor used next = some c := by
  obtain ⟨r, hr0, hr10, hrnot⟩ := usedResCount_lt_exists used h
  cases hq : pickColor used next with
  | some c => exact ⟨c, rfl⟩
  | none =>
    exfalso
    have hall := List.find?_eq_none.mp hq
    have h1 : 0 ≤ (r - next) % 10 :=
      Int.emod_nonneg (r - next) (by norm_num)
    have h2 : (r - next) % 10 < 10 :=
      Int.emod_lt_of_pos (r - next) (by norm_num)
    have hoff : ((r - next) % 10).toNat < 10 := by omega
    have hcand : (next + ((((r - next) % 10).toNat : ℕ) : ℤ)) % 10 = r := by
      rw [Int.toNat_of_nonneg h1]
      conv_lhs => rw [Int.add_emod, Int.emod_emod_of_dvd _ (dvd_refl 10)]
      rw [← Int.add_emod]
      have h3 : next + (r - next) = r := by ring
      rw [h3]
      omega
    have hmem : r ∈ (List.range 10).map
        (fun off : ℕ => (next + (off : ℤ)) % 10) := by
      apply List.mem_map.mpr
      exact ⟨((r - next) % 10).toNat, List.mem_range.mpr hoff, hcand⟩
    have := hall r hmem
    simp [hrnot] at this

/-- No later player receives a color already in the used set whose value
no explicit choice carries. -/
theorem assignColorsGo_ne (data_c : ℤ) :
    ∀ (ps : List HeaderPlayer) (used : List ℤ) (next : ℤ),
      data_c ∈ used → 0 ≤ data_c →
      (∀ p ∈ ps, p.color_id ≠ -1 → p.color_id ≠ data_c) →
      ∀ q ∈ assignColorsGo used next ps, q.color_id ≠ data_c := by
  intro ps
  induction ps with
  | nil => intro used next _ _ _ q hq; cases hq
  | cons p rest ih =>
    intro used next hc hc0 hexp q hq
    rw [assignColorsGo] at hq
    by_cases hpc : p.color_id = -1
    · rw [if_pos hpc] at hq
      cases hpick : pickColor used next with
      | some c =>
        rw [hpick] at hq
        rcases List.mem_cons.mp hq with rfl | hq2
        · intro he
          have hcc : c = data_c := by simpa using he
          exact (pickColor_some_spec used next c hpick).2.2 (hcc ▸ hc)
        · exact ih (c :: used) ((c + 1) % 10) (List.mem_cons_of_mem c hc) hc0
            (fun r hr hne => hexp r (List.mem_cons_of_mem _ hr) hne) q hq2
      | none =>
        rw [hpick] at hq
        rcases List.mem_cons.mp hq with rfl | hq2
        · rw [hpc]; omega
        · exact ih used next hc hc0
            (fun r hr hne => hexp r (List.mem_cons_of_mem _ hr) hne) q hq2
    · rw [if_neg hpc] at hq
      rcases List.mem_cons.mp hq with rfl | hq2
      · exact hexp q (List.mem_cons_self _ _) hpc
      · exact ih used next hc hc0
          (fun r hr hne => hexp r (List.mem_cons_of_mem _ hr) hne) q hq2

/-- The assignment pass yields pairwise distinct colors when explicit
choices are distinct and the palette is not exhausted. -/
theorem assignColorsGo_pairwise :
    ∀ (ps : List HeaderPlayer) (used : List ℤ) (next : ℤ),
      (∀ p ∈ ps, -1 ≤ p.color_id) →
      (∀ p ∈ ps, p.color_id ≠ -1 → p.color_id ∈ used) →
      (ps.filter (fun p => p.color_id ≠ -1)).Pairwise
        (fun a b => a.color_id ≠ b.color_id) →
      (ps.filter (fun p => p.color_id = -1)).length + usedResCount used ≤ 10 →
      (assignColorsGo used next ps).Pairwise
        (fun a b => a.color_id ≠ b.color_id) := by
  intro ps
  induction ps with
  | nil => intro used next _ _ _ _; exact List.Pairwise.nil
  | cons p rest ih =>
    intro used next h0 h1 h2 hcap
    by_cases hpc : p.color_id = -1
    · have hfneg : (p :: rest).filter (fun q => q.color_id ≠ -1) =
          rest.filter (fun q => q.color_id ≠ -1) := by
        rw [List.filter_cons_of_neg]
        simp [hpc]
      have hfpos : (p :: rest).filter (fun q => q.color_id = -1) =
          p :: rest.filter (fun q => q.color_id = -1) := by
        rw [List.filter_cons_of_pos]
        simp [hpc]
      have hcap9 : usedResCount used < 10 := by
        rw [hfpos] at hcap
        simp only [List.length_cons] at hcap
        omega
      obtain ⟨c, hpick⟩ := pickColor_isSome used next hcap9
      obtain ⟨hc0, hc10, hcnot⟩ := pickColor_some_spec used next c hpick
      rw [assignColorsGo, if_pos hpc, hpick]
      apply List.Pairwise.cons
      · intro q hq
        exact (assignColorsGo_ne c rest (c :: used) ((c + 1) % 10)
          (List.mem_cons_self _ _) hc0
          (fun r hr hne he =>
            hcnot (he ▸ h1 r (List.mem_cons_of_mem _ hr) hne)) q hq).symm
      · apply ih (c :: used) ((c + 1) % 10)
        · exact fun r hr => h0 r (List.mem_cons_of_mem _ hr)
        · exact fun r hr hne =>
            List.mem_cons_of_mem _ (h1 r (List.mem_cons_of_mem _ hr) hne)
        · rw [hfneg] at h2; exact h2
        · rw [usedResCount_cons used c hc0 hc10 hcnot]
          rw [hfpos] at hcap
          simp only [List.length_cons] at hcap
          omega
    · have hfpos : (p :: rest).filter (fun q => q.color_id ≠ -1) =
          p :: rest.filter (fun q => q.color_id ≠ -1) := by
        rw [List.filter_cons_of_pos]
        simp [hpc]
      have hfneg : (p :: rest).filter (fun q => q.color_id = -1) =
          rest.filter (fun q => q.color_id = -1) := by
        rw [List.filter_cons_of_neg]
        simp [hpc]
      rw [hfpos] at h2
      have h2' := List.pairwise_cons.mp h2
      rw [assignColorsGo, if_neg hpc]
      apply List.Pairwise.cons
      · intro q hq
        refine (assignColorsGo_ne p.color_id rest used next
          (h1 p (List.mem_cons_self _ _) hpc)
          (by have := h0 p (List.mem_cons_self _ _); omega)
          (fun r hr hne => ?_) q hq).symm
        exact (h2'.1 r (List.mem_filter.mpr ⟨hr, by simpa using hne⟩)).symm
      · apply ih used next
        · exact fun r hr => h0 r (List.mem_cons_of_mem _ hr)
        · exact fun r hr hne => h1 r (List.mem_cons_of_mem _ hr) hne
        · exact h2'.2
        · rw [hfneg] at hcap; exact hcap

/-- The assignment pass resolves every color into 0–9 when the palette is
not exhausted and explicit choices are in range. -/
theorem assignColorsGo_range :
    ∀ (ps : List HeaderPlayer) (used : List ℤ) (next : ℤ),
      (∀ p ∈ ps, p.color_id = -1 ∨ (0 ≤ p.color_id ∧ p.color_id < 10)) →
      (ps.filter (fun p => p.color_id = -1)).length + usedResCount used ≤ 10 →
      ∀ q ∈ assignColorsGo used next ps,
        0 ≤ q.color_id ∧ q.color_id < 10 := by
  intro ps
  induction ps with
  | nil => intro used next _ _ q hq; cases hq
  | cons p rest ih =>
    intro used next h0 hcap q hq
    by_cases hpc : p.color_id = -1
    · have hfpos : (p :: rest).filter (fun r => r.color_id = -1) =
          p :: rest.filter (fun r => r.color_id = -1) := by
        rw [List.filter_cons_of_pos]
        simp [hpc]
      have hcap9 : usedResCount used < 10 := by
        rw [hfpos] at hcap
        simp only [List.length_cons] at hcap
        omega
      obtain ⟨c, hpick⟩ := pickColor_isSome used next hcap9
      obtain ⟨hc0, hc10, hcnot⟩ := pickColor_some_spec used next c hpick
      rw [assignColorsGo, if_pos hpc, hpick] at hq
      rcases List.mem_cons.mp hq with rfl | hq2
      · exact ⟨hc0, hc10⟩
      · apply ih (c :: used) ((c + 1) % 10)
          (fun r hr => h0 r (List.mem_cons_of_mem _ hr)) ?_ q hq2
        rw [usedResCount_cons used c hc0 hc10 hcnot]
        rw [hfpos] at hcap
        simp only [List.length_cons] at hcap
        omega
    · rw [assignColorsGo, if_neg hpc] at hq
      rcases List.mem_cons.mp hq with rfl | hq2
      · rcases h0 q (List.mem_cons_self _ _) with he | hr
        · exact absurd he hpc
        · exact hr
      · apply ih used next (fun r hr => h0 r (List.mem_cons_of_mem _ hr)) ?_ q hq2
        have hfneg : (p :: rest).filter (fun r => r.color_id = -1) =
            rest.filter (fun r => r.color_id = -1) := by
          rw [List.filter_cons_of_neg]
          simp [hpc]
        rw [hfneg] at hcap
        exact hcap

/-- A duplicate-free list is no longer than any list containing it. -/
theorem nodup_subset_length {l1 l2 : List ℤ} (h : l1.Nodup) (hs : l1 ⊆ l2) :
    l1.length ≤ l2.length := by
  calc l1.length = l1.toFinset.card := (List.toFinset_card_of_nodup h).symm
  _ ≤ l2.toFinset.card := Finset.card_le_card (fun x hx => by
      rw [List.mem_toFinset] at *
      exact hs hx)
  _ ≤ l2.length := l2.toFinset_card_le

/-- Set insertion keeps existing members. -/
theorem setInsert_preserves_mem {x y : ℤ} {l : List ℤ} (h : x ∈ l) :
    x ∈ setInsert y l := by
  unfold setInsert
  split
  · exact h
  · exact List.mem_cons_of_mem _ h

/-- Set insertion adds its argument. -/
theorem setInsert_self_mem (x : ℤ) (l : List ℤ) : x ∈ setInsert x l := by
  unfold setInsert
  split
  · assumption
  · exact List.mem_cons_self _ _

/-- Set insertion preserves freedom from duplicates. -/
theorem setInsert_nodup {x : ℤ} {l : List ℤ} (h : l.Nodup) :
    (setInsert x l).Nodup := by
  unfold setInsert
  split
  · exact h
  · exact List.nodup_cons.mpr ⟨by assumption, h⟩

/-- Set insertion grows the set by at most one. -/
theorem setInsert_length {x : ℤ} (l : List ℤ) :
    (setInsert x l).length ≤ l.length + 1 := by
  unfold setInsert
  split
  · omega
  · simp

/-- The used-color fold keeps accumulator members. -/
theorem collectUsed_aux_mem :
    ∀ (ps : List HeaderPlayer) (acc : List ℤ) (x : ℤ), x ∈ acc →
      x ∈ ps.foldl
        (fun used p => if 0 ≤ p.color_id then setInsert p.color_id used else used)
        acc := by
  intro ps
  induction ps with
  | nil => intro acc x h; exact h
  | cons p rest ih =>
    intro acc x h
    simp only [List.foldl_cons]
    apply ih
    split
    · exact setInsert_preserves_mem h
    · exact h

/-- The used-color fold records every non-negative choice. -/
theorem collectUsed_aux_mem2 :
    ∀ (ps : List HeaderPlayer) (acc : List ℤ) (p : HeaderPlayer), p ∈ ps →
      0 ≤ p.color_id →
      p.color_id ∈ ps.foldl
        (fun used q => if 0 ≤ q.color_id then setInsert q.color_id used else used)
        acc := by
  intro ps
  induction ps with
  | nil => intro acc p hp; cases hp
  | cons q rest ih =>
    intro acc p hp h0
    simp only [List.foldl_cons]
    rcases List.mem_cons.mp hp with rfl | hp2
    · rw [if_pos h0]
      exact collectUsed_aux_mem rest _ _ (setInsert_self_mem _ _)
    · exact ih _ p hp2 h0

/-- Every explicitly chosen color ends up in the used set. -/
theorem collectUsed_mem (ps : List HeaderPlayer) (p : HeaderPlayer)
    (hp : p ∈ ps) (h0 : 0 ≤ p.color_id) :
    p.color_id ∈ collectUsedColors ps :=
  collectUsed_aux_mem2 ps [] p hp h0

/-- The used-color fold preserves freedom from duplicates. -/
theorem collectUsed_aux_nodup :
    ∀ (ps : List HeaderPlayer) (acc : List ℤ), acc.Nodup →
      (ps.foldl
        (fun used q => if 0 ≤ q.color_id then setInsert q.color_id used else used)
        acc).Nodup := by
  intro ps
  induction ps with
  | nil => intro acc h; exact h
  | cons q rest ih =>
    intro acc h
    simp only [List.foldl_cons]
    apply ih
    split
    · exact setInsert_nodup h
    · exact h

/-- The used-color set has no duplicates. -/
theorem collectUsed_nodup (ps : List HeaderPlayer) :
    (collectUsedColors ps).Nodup :=
  collectUsed_aux_nodup ps [] List.nodup_nil

/-- The used-color fold grows by at most one per non-negative choice. -/
theorem collectUsed_aux_length :
    ∀ (ps : List HeaderPlayer) (acc : List ℤ),
      (ps.foldl
        (fun used q => if 0 ≤ q.color_id then setInsert q.color_id used else used)
        acc).length ≤
        acc.length + (ps.filter (fun p => 0 ≤ p.color_id)).length := by
  intro ps
  induction ps with
  | nil => intro acc; simp
  | cons q rest ih =>
    intro acc
    simp only [List.foldl_cons]
    by_cases hq : 0 ≤ q.color_id
    · rw [if_pos hq, List.filter_cons_of_pos (by simpa using hq)]
      have h1 := ih (setInsert q.color_id acc)
      have h2 := setInsert_length (x := q.color_id) acc
      simp only [List.length_cons]
      omega
    · rw [if_neg hq, List.filter_cons_of_neg (by simpa using hq)]
      exact ih acc

/-- The used-color set is no larger than the number of non-negative
choices. -/
theorem collectUsed_length (ps : List HeaderPlayer) :
    (collectUsedColors ps).length ≤
      (ps.filter (fun p => 0 ≤ p.color_id)).length := by
  have := collectUsed_aux_length ps []
  simpa using this

/-- The used-palette count is bounded by the used-set size. -/
theorem usedResCount_le (used : List ℤ) (h : used.Nodup) :
    usedResCount used ≤ used.length := by
  apply nodup_subset_length
  · exact List.Nodup.filter _ (by decide : rangeTenInt.Nodup)
  · intro x hx
    have := List.of_mem_filter hx
    simpa using this

/-- Unresolved and non-negative choices partition the player list. -/
theorem filter_partition_length (ps : List HeaderPlayer)
    (h0 : ∀ p ∈ ps, -1 ≤ p.color_id) :
    (ps.filter (fun p => p.color_id = -1)).length +
      (ps.filter (fun p => 0 ≤ p.color_id)).length ≤ ps.length := by
  induction ps with
  | nil => simp
  | cons q rest ih =>
    have hq := h0 q (List.mem_cons_self _ _)
    have ih2 := ih (fun p hp => h0 p (List.mem_cons_of_mem _ hp))
    by_cases hqe : q.color_id = -1
    · rw [List.filter_cons_of_pos (by simpa using hqe),
        List.filter_cons_of_neg (by simp [hqe])]
      simp only [List.length_cons]
      omega
    · rw [List.filter_cons_of_neg (by simpa using hqe),
        List.filter_cons_of_pos (by simp; omega)]
      simp only [List.length_cons]
      omega

/-- Color assignment preserves the number of players. -/
theorem assignColorsGo_length :
    ∀ (ps : List HeaderPlayer) (used : List ℤ) (next : ℤ),
      (assignColorsGo used next ps).length = ps.length := by
  intro ps
  induction ps with
  | nil => intro used next; rfl
  | cons p rest ih =>
    intro used next
    rw [assignColorsGo]
    split
    · cases hpick : pickColor used next <;> simp [hpick, ih]
    · simp [ih]

/-- Applying build info does not change fields other than position and
actual faction. -/
theorem applyBuilds_map_eq {α : Type} (F : Player → α)
    (hF : ∀ (p : Player) (mp : Option MapPosition) (af : Option Faction),
      F { p with map_position := mp, actual_faction := af } = F p)
    (builds : List (ℕ × BuildInfo)) (ps : List Player) :
    (applyBuilds builds ps).map F = ps.map F := by
  unfold applyBuilds
  rw [List.map_map]
  apply List.map_congr_left
  intro p _
  simp only [Function.comp_apply]
  cases assocFind p.slot builds with
  | none => rfl
  | some b =>
    cases hb : b.inferred_faction with
    | none =>
      simp only [hb]
      exact hF p (some b.position) p.actual_faction
    | some f =>
      simp only [hb]
      exact hF p (some b.position) (some f)

/-- The side remap does not change fields other than `team`. -/
theorem remap_map_eq {α : Type} (F : Player → α)
    (hF : ∀ (p : Player) (t : ℤ), F { p with team := t } = F p)
    (ps : List Player) (sides : List (ℤ × Side)) :
    (remap_teams_by_side ps sides).map F = ps.map F := by
  unfold remap_teams_by_side
  rw [List.map_map]
  apply List.map_congr_left
  intro p _
  simp only [Function.comp_apply]
  cases assocFind p.team_raw sides with
  | none => rfl
  | some s => exact hF p _

/-- Every player field except team, position and actual faction survives
from `build_players` into the decoded result unchanged. -/
theorem parse_players_map_eq {α : Type} (o : IterOrd) (data : List ℕ)
    (info : ReplayInfo) (F : Player → α)
    (hF1 : ∀ (p : Player) (mp : Option MapPosition) (af : Option Faction),
      F { p with map_position := mp, actual_faction := af } = F p)
    (hF2 : ∀ (p : Player) (t : ℤ), F { p with team := t } = F p)
    (h : parse_replay o data = .ok info) :
    info.players.map F = (build_players (coloredPlayersOf data)).map F := by
  obtain ⟨m, hm, hinfo⟩ := parse_ok_structure o data info h
  subst hinfo
  unfold assembleInfo
  cases hcs : find_chunks_start data with
  | none => rfl
  | some s =>
    dsimp only
    rw [remap_map_eq F hF2, applyBuilds_map_eq F hF1]

/-- Building players keeps each header color id. -/
theorem build_players_map_color (hps : List HeaderPlayer) :
    (build_players hps).map (fun p => p.color_id) =
      hps.map (fun hp => hp.color_id) := by
  unfold build_players
  rw [List.map_map]
  rfl

/-- C3 (amended): provided every header color id is at least −1 and the
explicitly chosen (non-`-1`) color ids are pairwise distinct, a
successfully decoded replay with fewer than 10 players has pairwise
distinct player color ids. -/
theorem claim_C3_amended :
    ∀ (o : IterOrd) (data : List ℕ) (info : ReplayInfo),
      parse_replay o data = .ok info →
      info.players.length < 10 →
      (∀ p ∈ (headerTableOf data).players, -1 ≤ p.color_id) →
      ((headerTableOf data).players.filter
        (fun p => p.color_id ≠ -1)).Pairwise
        (fun a b => a.color_id ≠ b.color_id) →
      info.players.Pairwise (fun a b => a.color_id ≠ b.color_id) := by
  intro o data info h hlen h0 hdist
  have hmap := parse_players_map_eq o data info (fun p => p.color_id)
    (fun _ _ _ => rfl) (fun _ _ => rfl) h
  rw [build_players_map_color] at hmap
  have hlen2 : info.players.length = (coloredPlayersOf data).length := by
    have := congrArg List.length hmap
    simpa using this
  have hlen3 : (coloredPlayersOf data).length =
      (headerTableOf data).players.length := by
    unfold coloredPlayersOf assign_player_colors
    exact assignColorsGo_length _ _ _
  have hcap : ((headerTableOf data).players.filter
      (fun p => p.color_id = -1)).length +
      usedResCount (collectUsedColors (headerTableOf data).players) ≤ 10 := by
    have h1 := usedResCount_le _ (collectUsed_nodup (headerTableOf data).players)
    have h2 := collectUsed_length (headerTableOf data).players
    have h3 := filter_partition_length (headerTableOf data).players h0
    omega
  have hexp : ∀ p ∈ (headerTableOf data).players, p.color_id ≠ -1 →
      p.color_id ∈ collectUsedColors (headerTableOf data).players := by
    intro p hp hne
    have h01 := h0 p hp
    exact collectUsed_mem _ p hp (by omega)
  have hpair : (coloredPlayersOf data).Pairwise
      (fun a b => a.color_id ≠ b.color_id) := by
    unfold coloredPlayersOf assign_player_colors
    exact assignColorsGo_pairwise _ _ _ h0 hexp hdist hcap
  have hpair2 : ((coloredPlayersOf data).map (fun p => p.color_id)).Pairwise
      (fun a b => a ≠ b) := List.pairwise_map.mpr hpair
  rw [← hmap] at hpair2
  exact List.pairwise_map.mp hpair2

/-- C3 witness: the two-player buffer with unresolved colors decodes with
distinct color ids. -/
theorem claim_C3_witness :
    (assembleInfo ordId bufCrash (asciiBytes mapWorRhunStr)).players.Pairwise
      (fun a b => a.color_id ≠ b.color_id) :=
  claim_C3_amended ordId bufCrash _ (by decide) (by decide) (by decide)
    (by decide)

/-- Placeholder player for `getD` projections in closed statements. -/
def dummyPlayer : Player :=
  ⟨[], none, 0, 0, 0, .random, -1, (0, 0, 0), none, none⟩

/-- C4 (amended): provided every explicitly chosen color id lies in 0–9
and the number of unresolved players plus the number of distinct
explicitly used ids is at most 10, every decoded player carries a concrete
color id in 0–9 whose RGB triple is the corresponding palette entry. -/
theorem claim_C4_amended :
    ∀ (o : IterOrd) (data : List ℕ) (info : ReplayInfo),
      parse_replay o data = .ok info →
      (∀ p ∈ (headerTableOf data).players,
        p.color_id = -1 ∨ (0 ≤ p.color_id ∧ p.color_id < 10)) →
      ((headerTableOf data).players.filter
          (fun p => p.color_id = -1)).length +
        usedResCount (collectUsedColors (headerTableOf data).players) ≤ 10 →
      ∀ p ∈ info.players, 0 ≤ p.color_id ∧ p.color_id < 10 ∧
        p.color_rgb = PLAYER_COLORS.getD p.color_id.toNat (128, 128, 128) := by
  intro o data info h h0 hcap p hp
  have hmap := parse_players_map_eq o data info
    (fun p => (p.color_id, p.color_rgb)) (fun _ _ _ => rfl) (fun _ _ => rfl) h
  have hrange : ∀ q ∈ coloredPlayersOf data, 0 ≤ q.color_id ∧ q.color_id < 10 := by
    unfold coloredPlayersOf assign_player_colors
    exact assignColorsGo_range _ _ _ h0 hcap
  have hmem : (p.color_id, p.color_rgb) ∈
      (build_players (coloredPlayersOf data)).map
        (fun p => (p.color_id, p.color_rgb)) := by
    rw [← hmap]
    exact List.mem_map_of_mem _ hp
  obtain ⟨q, hq, hFq⟩ := List.mem_map.mp hmem
  unfold build_players at hq
  obtain ⟨hpq, hh, rfl⟩ := List.mem_map.mp hq
  obtain ⟨hr0, hr10⟩ := hrange hpq hh
  have hcid : hpq.color_id = p.color_id := congrArg Prod.fst hFq
  have hrgb : (if 0 ≤ hpq.color_id ∧ hpq.color_id < 10 then
      PLAYER_COLORS.getD hpq.color_id.toNat (128, 128, 128)
    else (128, 128, 128)) = p.color_rgb := congrArg Prod.snd hFq
  rw [if_pos ⟨hr0, hr10⟩] at hrgb
  refine ⟨by omega, by omega, ?_⟩
  rw [← hrgb, hcid]

/-- C4 witness: the first player of the crash buffer has a concrete
palette color. -/
theorem claim_C4_witness :
    0 ≤ ((assembleInfo ordId bufCrash
        (asciiBytes mapWorRhunStr)).players.getD 0 dummyPlayer).color_id ∧
    ((assembleInfo ordId bufCrash
        (asciiBytes mapWorRhunStr)).players.getD 0 dummyPlayer).color_id < 10 ∧
    ((assembleInfo ordId bufCrash
        (asciiBytes mapWorRhunStr)).players.getD 0 dummyPlayer).color_rgb =
      PLAYER_COLORS.getD ((assembleInfo ordId bufCrash
        (asciiBytes mapWorRhunStr)).players.getD 0
          dummyPlayer).color_id.toNat (128, 128, 128) :=
  claim_C4_amended ordId bufCrash
    (assembleInfo ordId bufCrash (asciiBytes mapWorRhunStr)) (by decide)
    (by decide) (by decide) _ (by decide)

/-- C3 counterexample: two players that both explicitly chose color id 2
keep it, so a successfully decoded replay with 2 players carries a
duplicated color id. -/
theorem claim_C3_counterexample :
    (parse_replay ordId bufDupColor).map
      (fun i => i.players.map (fun p => p.color_id)) = .ok [2, 2] ∧
    (parse_replay ordId bufDupColor).map (fun i => i.players.length) =
      .ok 2 :=
  ⟨by decide, by decide⟩

set_option maxRecDepth 4000 in
/-- C4 counterexample: with ten explicitly used colors, the eleventh
player keeps the unresolved id −1 and the fallback gray RGB, which is not
a palette entry. -/
theorem claim_C4_counterexample :
    (parse_replay ordId bufEleven).map
      (fun i => (i.players.getD 10 dummyPlayer).color_id) = .ok (-1) ∧
    (parse_replay ordId bufEleven).map
      (fun i => (i.players.getD 10 dummyPlayer).color_rgb) =
      .ok (128, 128, 128) ∧
    ((128 : ℕ), (128 : ℕ), (128 : ℕ)) ∉ PLAYER_COLORS :=
  ⟨by decide, by decide, by decide⟩

/- ## Claim C9: the random-color gap algorithm -/

/-- The nine non-reserved palette ids (id 9 is reserved). -/
def rangeNineInt : List ℤ := [0, 1, 2, 3, 4, 5, 6, 7, 8]

/-- Modelled from the spec: the maximal contiguous free run within ids
0–8, ties broken toward the run with the larger end index, expressed as a
direct maximum instead of the source's sort-then-take-first. -/
def specBestRun (avail : List ℤ) : ℤ × ℤ × ℤ :=
  match gapsOf avail with
  | [] => (0, 0, 0)
  | g :: gs =>
    gs.foldl (fun best r =>
      if best.2.2 < r.2.2 ∨ (best.2.2 = r.2.2 ∧ best.2.1 ≤ r.2.1) then r
      else best) g

set_option maxRecDepth 2000 in
/-- The sorted-head and direct-maximum run selections agree on every one
of the 512 possible availability sets. -/
theorem select_eq_aux :
    rangeNineInt.sublists.all (fun s =>
      decide ((if s = [] then ((0 : ℤ), (0 : ℤ), (0 : ℤ))
        else match insertionSortBy gapLE (gapsOf s) with
          | g :: _ => g
          | [] => (0, 0, 0)) = specBestRun s)) = true := by
  decide

/-- Lifting of the exhaustive check to any sublist of the id range. -/
theorem select_eq (s : List ℤ) (hs : s.Sublist rangeNineInt) :
    (if s = [] then ((0 : ℤ), (0 : ℤ), (0 : ℤ))
      else match insertionSortBy gapLE (gapsOf s) with
        | g :: _ => g
        | [] => (0, 0, 0)) = specBestRun s := by
  have hmem : s ∈ rangeNineInt.sublists := List.mem_sublists.mpr hs
  have := List.all_eq_true.mp select_eq_aux s hmem
  exact of_decide_eq_true this

/-- The mapped range equals the literal id list. -/
theorem range_nine_eq :
    (List.range 9).map (fun n => (n : ℤ)) = rangeNineInt := by decide

/-- The source's `find_best_gap` computes exactly the spec's maximal
run. -/
theorem find_best_gap_eq_spec (used : List ℤ) :
    find_best_gap used =
      specBestRun (rangeNineInt.filter (fun c => c ∉ used)) := by
  unfold find_best_gap
  rw [range_nine_eq]
  exact select_eq _ (List.filter_sublist _)

/-- Modelled from the spec: scan the 10 ids from the cursor, wrapping
modulo 10, for the first unused id. -/
def specFirstUnused (used : List ℤ) (cursor : ℤ) : Option ℤ :=
  ((List.range 10).map (fun k : ℕ => (cursor + (k : ℤ)) % 10)).find?
    (fun c => c ∉ used)

/-- Modelled from the spec: walk unresolved players in slot order,
assigning the first unused id from the cursor and moving the cursor one
past the assigned id; a player is left unresolved when no id is free (the
spec presupposes one exists). -/
def specWalk (used : List ℤ) (cursor : ℤ) :
    List HeaderPlayer → List HeaderPlayer
  | [] => []
  | p :: ps =>
    if p.color_id = -1 then
      match specFirstUnused used cursor with
      | some c =>
        { p with color_id := c } :: specWalk (c :: used) ((c + 1) % 10) ps
      | none => p :: specWalk used cursor ps
    else p :: specWalk used cursor ps

/-- Modelled from the spec: the whole random-color assignment — explicit
ids form the used set, the cursor starts at the maximal run's start if its
length is at least 3 and at its end otherwise, then the cursor walk. -/
def specAssignColors (players : List HeaderPlayer) : List HeaderPlayer :=
  let used := collectUsedColors players
  let avail := rangeNineInt.filter (fun c => c ∉ used)
  let run := specBestRun avail
  let cursor := if 3 ≤ run.2.2 then run.1 else run.2.1
  specWalk used cursor players

/-- The source's inner scan is the spec's first-unused scan. -/
theorem pickColor_eq_spec (used : List ℤ) (next : ℤ) :
    pickColor used next = specFirstUnused used next := rfl

/-- The source's assignment pass is the spec's cursor walk. -/
theorem assignColorsGo_eq_specWalk :
    ∀ (ps : List HeaderPlayer) (used : List ℤ) (next : ℤ),
      assignColorsGo used next ps = specWalk used next ps := by
  intro ps
  induction ps with
  | nil => intro used next; rfl
  | cons p rest ih =>
    intro used next
    rw [assignColorsGo, specWalk, ← pickColor_eq_spec]
    by_cases hpc : p.color_id = -1
    · rw [if_pos hpc, if_pos hpc]
      cases pickColor used next <;> simp [ih]
    · rw [if_neg hpc, if_neg hpc, ih]

/-- C9: `assign_player_colors` implements the spec's gap algorithm —
maximal free run within 0–8 with larger-end tie-break, cursor at the
run's start iff its length is at least 3, slot-order walk assigning the
first unused id from the cursor modulo 10, cursor moving one past each
assigned id. -/
theorem claim_C9_gap_assignment (players : List HeaderPlayer) :
    assign_player_colors players = specAssignColors players := by
  unfold assign_player_colors specAssignColors
  dsimp only
  rw [find_best_gap_eq_spec, assignColorsGo_eq_specWalk]

/-- A byte that does not start a `;S=<byte>` marker is skipped by the
player-table scan. -/
theorem playerEntriesOf_skip (b : ℕ) (l : List ℕ)
    (h : ¬∃ d rest, b = 59 ∧ l = 83 :: 61 :: d :: rest) :
    playerEntriesOf (b :: l) = playerEntriesOf l := by
  rw [playerEntriesOf.eq_def]
  split
  · rename_i heq
    exact absurd ⟨_, _, by injection heq, by
      have := congrArg List.tail heq
      simpa using this⟩ h
  · rename_i heq
    injection heq with h1 h2
    rw [h2]
  · rename_i heq
    cases heq

/-- A `;`-free prefix is skipped wholesale by the player-table scan. -/
theorem playerEntriesOf_append_no59 (pre : List ℕ) (l : List ℕ)
    (h : ∀ b ∈ pre, b ≠ 59) :
    playerEntriesOf (pre ++ l) = playerEntriesOf l := by
  induction pre with
  | nil => rfl
  | cons b rest ih =>
    rw [List.cons_append, playerEntriesOf_skip]
    · exact ih (fun x hx => h x (List.mem_cons_of_mem _ hx))
    · rintro ⟨d, r, rfl, -⟩
      exact h 59 (List.mem_cons_self _ _) rfl

/-- An ASCII byte decodes to itself and consumes nothing further. -/
theorem utf8Step_ascii (b : ℕ) (rest : List ℕ) (hb : b < 128) :
    utf8Step b rest = some (b, rest) := by
  unfold utf8Step
  rw [if_pos hb]

/-- The fueled decoder is the identity on ASCII byte lists. -/
theorem utf8DecodeF_ascii (fuel : ℕ) :
    ∀ (l : List ℕ), l.length < fuel → (∀ b ∈ l, b < 128) →
      utf8DecodeF fuel l = some l := by
  induction fuel with
  | zero => exact fun l hl _ => absurd hl (Nat.not_lt_zero _)
  | succ fuel ih =>
    intro l hl h
    cases l with
    | nil => rfl
    | cons b rest =>
      rw [utf8DecodeF, utf8Step_ascii b rest (h b (List.mem_cons_self _ _))]
      dsimp only
      rw [ih rest (Nat.lt_of_succ_lt_succ hl)
        (fun x hx => h x (List.mem_cons_of_mem _ hx))]
      rfl

/-- UTF-8 decoding is the identity on ASCII byte lists. -/
theorem utf8Decode_ascii (l : List ℕ) (h : ∀ b ∈ l, b < 128) :
    utf8Decode l = some l :=
  utf8DecodeF_ascii (l.length + 1) l (Nat.lt_succ_self _) h

/-- The Turkish-fallback decoder is the identity on ASCII byte lists. -/
theorem decode_ascii (l : List ℕ) (h : ∀ b ∈ l, b < 128) :
    decode_with_turkish_fallback l = l := by
  unfold decode_with_turkish_fallback
  rw [utf8Decode_ascii l h]

/-- The span scan keeps a byte that is no terminator and no `;`. -/
theorem takePlayersSpan_cons_plain (b : ℕ) (l : List ℕ)
    (h0 : ¬(b = 0 ∨ b = 10 ∨ b = 13)) (h59 : b ≠ 59) :
    takePlayersSpan (b :: l) = b :: takePlayersSpan l := by
  rw [takePlayersSpan.eq_def]
  dsimp only
  rw [if_neg h0]
  rcases l with _ | ⟨u, _ | ⟨e, t⟩⟩
  · rfl
  · rfl
  · dsimp only
    rw [if_neg]
    rintro ⟨hb, -⟩
    exact h59 hb

/-- The span scan captures exactly a terminator-free, `;`-free chunk in
front of a NUL byte. -/
theorem takePlayersSpan_append_zero (l : List ℕ)
    (h : ∀ b ∈ l, ¬(b = 0 ∨ b = 10 ∨ b = 13) ∧ b ≠ 59) :
    takePlayersSpan (l ++ [0]) = l := by
  induction l with
  | nil => rfl
  | cons b rest ih =>
    rw [List.cons_append,
      takePlayersSpan_cons_plain b _ (h b (List.mem_cons_self _ _)).1
        (h b (List.mem_cons_self _ _)).2,
      ih (fun x hx => h x (List.mem_cons_of_mem _ hx))]

/-- Splitting a separator-free list yields that single segment. -/
theorem splitOnSep_no_sep (sep : ℕ) (l : List ℕ) (h : sep ∉ l) :
    splitOnSep sep l = [l] := by
  induction l with
  | nil => rfl
  | cons c rest ih =>
    have hc : c ≠ sep := fun hc => h (hc ▸ List.mem_cons_self _ _)
    rw [splitOnSep, ih (fun hx => h (List.mem_cons_of_mem _ hx))]
    simp only [if_neg hc]

/-- Splitting peels off a separator-free leading segment. -/
theorem splitOnSep_append (sep : ℕ) (e l : List ℕ) (h : sep ∉ e) :
    splitOnSep sep (e ++ sep :: l) = e :: splitOnSep sep l := by
  induction e with
  | nil =>
    rw [List.nil_append, splitOnSep, if_pos rfl]
  | cons c e' ih =>
    have hc : c ≠ sep := fun hc => h (hc ▸ List.mem_cons_self _ _)
    rw [List.cons_append, splitOnSep, ih (fun hx => h (List.mem_cons_of_mem _ hx))]
    simp only [if_neg hc]

/-- Every byte of a `:`-join is the separator or comes from a segment. -/
theorem mem_joinColon (b : ℕ) (es : List (List ℕ)) (h : b ∈ joinColon es) :
    b = 58 ∨ ∃ e ∈ es, b ∈ e := by
  induction es with
  | nil => cases h
  | cons x es ih =>
    rcases es with _ | ⟨y, r⟩
    · exact Or.inr ⟨x, List.mem_cons_self _ _, h⟩
    · rw [joinColon] at h
      case x_2 => simp
      rcases List.mem_append.mp h with hx | hr
      · exact Or.inr ⟨x, List.mem_cons_self _ _, hx⟩
      · rcases List.mem_cons.mp hr with h58 | hrest
        · exact Or.inl h58
        · rcases ih hrest with h58 | ⟨e, he, hbe⟩
          · exact Or.inl h58
          · exact Or.inr ⟨e, List.mem_cons_of_mem _ he, hbe⟩

/-- Splitting on `:` inverts the `:`-join of `:`-free segments. -/
theorem splitOnSep_joinColon (es : List (List ℕ)) (h : ∀ e ∈ es, 58 ∉ e)
    (hne : es ≠ []) :
    splitOnSep 58 (joinColon es) = es := by
  induction es with
  | nil => exact absurd rfl hne
  | cons x es ih =>
    rcases es with _ | ⟨y, r⟩
    · exact splitOnSep_no_sep 58 x (h x (List.mem_cons_self _ _))
    · rw [joinColon, splitOnSep_append 58 x _ (h x (List.mem_cons_self _ _)),
        ih (fun e he => h e (List.mem_cons_of_mem _ he)) (by simp)]
      case x_2 => simp

/-- At a `;S=` marker with a nonempty tail the scan returns the decoded,
split span. -/
theorem playerEntriesOf_marker (l : List ℕ) (h : l ≠ []) :
    playerEntriesOf (59 :: 83 :: 61 :: l) =
      if takePlayersSpan l ≠ [] then
        splitOnSep 58 (decode_with_turkish_fallback (takePlayersSpan l))
      else [] := by
  rcases l with _ | ⟨d, rest⟩
  · exact absurd rfl h
  · rw [playerEntriesOf.eq_def]

/-- A byte that does not start an `M=<byte>` marker is skipped by the
map-name scan. -/
theorem find_map_name_skip (b : ℕ) (l : List ℕ)
    (h : ¬∃ c rest, b = 77 ∧ l = 61 :: c :: rest) :
    find_map_name_in (b :: l) = find_map_name_in l := by
  rw [find_map_name_in.eq_def]
  split
  · rename_i heq
    exact absurd ⟨_, _, by injection heq, by
      have := congrArg List.tail heq
      simpa using this⟩ h
  · rename_i heq
    injection heq with h1 h2
    rw [h2]
  · rename_i heq
    cases heq

/-- Any byte other than `M` is skipped by the map-name scan. -/
theorem find_map_name_skip_ne77 (b : ℕ) (l : List ℕ) (h : b ≠ 77) :
    find_map_name_in (b :: l) = find_map_name_in l :=
  find_map_name_skip b l (by rintro ⟨c, r, hc, -⟩; exact h hc)

/-- `takeWhile` captures exactly a `;`-free prefix in front of a `;`. -/
theorem takeWhile_ne59 (s tail : List ℕ) (h : ∀ b ∈ s, b ≠ 59) :
    (s ++ 59 :: tail).takeWhile (fun b => b ≠ 59) = s := by
  induction s with
  | nil => simp [List.takeWhile_cons]
  | cons c s' ih =>
    rw [List.cons_append, List.takeWhile_cons]
    simp only [decide_eq_true_eq]
    rw [if_pos (h c (List.mem_cons_self _ _)),
      ih (fun x hx => h x (List.mem_cons_of_mem _ hx))]

/-- At an `M=` marker whose span is nonempty ASCII, the map name is the
extracted path. -/
theorem find_map_name_found (s tail : List ℕ) (hne : s ≠ [])
    (h : ∀ b ∈ s, b < 128 ∧ b ≠ 59) :
    find_map_name_in (77 :: 61 :: (s ++ 59 :: tail)) =
      extract_map_name_from_path s := by
  rcases s with _ | ⟨c, s'⟩
  · exact absurd rfl hne
  rw [List.cons_append, find_map_name_in.eq_def]
  dsimp only
  have hspan : (c :: (s' ++ 59 :: tail)).takeWhile (fun b => b ≠ 59) =
      c :: s' := by
    rw [← List.cons_append]
    exact takeWhile_ne59 (c :: s') tail (fun b hb => (h b hb).2)
  rw [hspan, if_pos (by simp), utf8Decode_ascii (c :: s')
    (fun b hb => (h b hb).1)]

/-- The 257-slot buffer, written byte by byte down to the joined table. -/
theorem bufManySlots_chain :
    bufManySlots =
      66 :: 70 :: 77 :: 69 :: 50 :: 82 :: 80 :: 76 :: 0 :: 0 :: 0 :: 0 ::
      0 :: 0 :: 0 :: 0 :: 77 :: 61 :: 109 :: 97 :: 112 :: 115 :: 47 ::
      109 :: 97 :: 112 :: 32 :: 119 :: 111 :: 114 :: 32 :: 114 :: 104 ::
      117 :: 110 :: 59 :: 83 :: 61 ::
      (joinColon (List.replicate 257 (asciiBytes entrySlotStr)) ++ [0]) := by
  have h : asciiBytes hdrPrefixStr =
      [77, 61, 109, 97, 112, 115, 47, 109, 97, 112, 32, 119, 111, 114, 32,
       114, 104, 117, 110, 59, 83, 61] := by decide
  have h8 : List.replicate 8 0 = ([0, 0, 0, 0, 0, 0, 0, 0] : List ℕ) := by
    decide
  show MAGIC ++ List.replicate 8 0 ++ asciiBytes hdrPrefixStr ++ _ ++ [0] = _
  rw [h, h8]
  simp only [MAGIC, List.cons_append, List.nil_append, List.append_assoc]

theorem find_map_name_bufManySlots :
    find_map_name_in bufManySlots = some (asciiBytes mapWorRhunStr) := by
  rw [bufManySlots_chain]
  rw [find_map_name_skip_ne77 66 _ (by norm_num),
    find_map_name_skip_ne77 70 _ (by norm_num),
    find_map_name_skip 77 _
      (by rintro ⟨c, r, -, hh⟩; injection hh with h1 h2
          exact absurd h1 (by decide)),
    find_map_name_skip_ne77 69 _ (by norm_num),
    find_map_name_skip_ne77 50 _ (by norm_num),
    find_map_name_skip_ne77 82 _ (by norm_num),
    find_map_name_skip_ne77 80 _ (by norm_num),
    find_map_name_skip_ne77 76 _ (by norm_num),
    find_map_name_skip_ne77 0 _ (by norm_num),
    find_map_name_skip_ne77 0 _ (by norm_num),
    find_map_name_skip_ne77 0 _ (by norm_num),
    find_map_name_skip_ne77 0 _ (by norm_num),
    find_map_name_skip_ne77 0 _ (by norm_num),
    find_map_name_skip_ne77 0 _ (by norm_num),
    find_map_name_skip_ne77 0 _ (by norm_num),
    find_map_name_skip_ne77 0 _ (by norm_num)]
  have hfound := find_map_name_found
    [109, 97, 112, 115, 47, 109, 97, 112, 32, 119, 111, 114, 32, 114, 104,
     117, 110]
    (83 :: 61 :: (joinColon (List.replicate 257 (asciiBytes entrySlotStr)) ++
      [0]))
    (by simp) (by decide)
  rw [List.cons_append] at hfound
  simp only [List.cons_append, List.nil_append] at hfound
  rw [hfound]
  decide

/-- Byte form of the minimal slot entry. -/
theorem entrySlot_bytes :
    asciiBytes entrySlotStr = [65, 44, 44, 44, 44, 49, 44, 44, 44, 48] := by
  decide

/-- All bytes of the joined 257-entry table are plain ASCII. -/
theorem joinColon_entry_mem (b : ℕ)
    (hb : b ∈ joinColon (List.replicate 257 (asciiBytes entrySlotStr))) :
    b < 128 ∧ ¬(b = 0 ∨ b = 10 ∨ b = 13) ∧ b ≠ 59 := by
  rcases mem_joinColon b _ hb with h58 | ⟨e, he, hbe⟩
  · subst h58
    exact ⟨by norm_num, by norm_num, by norm_num⟩
  · rw [List.eq_of_mem_replicate he, entrySlot_bytes] at hbe
    fin_cases hbe <;> exact ⟨by norm_num, by norm_num, by norm_num⟩

set_option maxRecDepth 4000 in
/-- The 257-slot buffer split just before the `;S=` marker. -/
theorem bufManySlots_regroup :
    bufManySlots =
      [66, 70, 77, 69, 50, 82, 80, 76, 0, 0, 0, 0, 0, 0, 0, 0, 77, 61, 109,
       97, 112, 115, 47, 109, 97, 112, 32, 119, 111, 114, 32, 114, 104, 117,
       110] ++ (59 :: 83 :: 61 ::
        (joinColon (List.replicate 257 (asciiBytes entrySlotStr)) ++ [0])) := by
  rw [bufManySlots_chain]
  rfl

set_option maxRecDepth 4000 in
/-- The 257-slot buffer yields exactly its 257 table entries. -/
theorem playerEntriesOf_bufManySlots :
    playerEntriesOf bufManySlots =
      List.replicate 257 (asciiBytes entrySlotStr) := by
  rw [bufManySlots_regroup, playerEntriesOf_append_no59 _ _ (by decide)]
  rw [playerEntriesOf_marker _
    (fun h => absurd (List.append_eq_nil.mp h).2 (by decide))]
  rw [takePlayersSpan_append_zero _ (fun b hb => (joinColon_entry_mem b hb).2)]
  have hsep : ∀ e ∈ List.replicate 257 (asciiBytes entrySlotStr), 58 ∉ e := by
    intro e he
    rw [List.eq_of_mem_replicate he, entrySlot_bytes]
    decide
  have hrep : List.replicate 257 (asciiBytes entrySlotStr) ≠ [] := by
    intro h
    have h2 := congrArg List.length h
    rw [List.length_replicate] at h2
    exact absurd h2 (by decide)
  have hsplit := splitOnSep_joinColon
    (List.replicate 257 (asciiBytes entrySlotStr)) hsep hrep
  have hJne : joinColon (List.replicate 257 (asciiBytes entrySlotStr)) ≠ [] := by
    intro h
    rw [h] at hsplit
    have h2 := congrArg List.length hsplit
    rw [List.length_replicate] at h2
    exact absurd h2 (by decide)
  rw [if_pos hJne, decode_ascii _ (fun b hb => (joinColon_entry_mem b hb).1),
    hsplit]

/-- The minimal slot entry parses to a team-0 player named `A` with
explicit color 1. -/
theorem ppd_entrySlot (s : ℕ) :
    parse_player_data [65, 44, 44, 44, 44, 49, 44, 44, 44, 48] s =
      some ⟨[65], none, 1, -1, 0, s⟩ := rfl

/-- Processing `n` copies of the minimal slot entry from a start index
yields players with the wrapped slots of `n` consecutive indices. -/
theorem processEntries_replicate (n : ℕ) :
    ∀ idx : ℕ,
      processEntries idx
        (List.replicate n [65, 44, 44, 44, 44, 49, 44, 44, 44, 48]) =
        ⟨(List.range' idx n).map (fun i => ⟨[65], none, 1, -1, 0, i % 256⟩),
          [], (List.range' idx n).map (fun i => i % 256)⟩ := by
  induction n with
  | zero => intro idx; rfl
  | succ n ih =>
    intro idx
    rw [List.replicate_succ, processEntries, ih (idx + 1), ppd_entrySlot,
      List.range'_succ]
    dsimp only
    rw [if_pos (by norm_num)]
    simp only [List.map_cons]

/-- The header table of the 257-slot buffer: 257 players whose slots wrap
modulo 256. -/
theorem headerTableOf_bufManySlots :
    headerTableOf bufManySlots =
      ⟨(List.range' 0 257).map (fun i => ⟨[65], none, 1, -1, 0, i % 256⟩),
        [], (List.range' 0 257).map (fun i => i % 256)⟩ := by
  show processEntries 0 (playerEntriesOf bufManySlots) = _
  rw [playerEntriesOf_bufManySlots, entrySlot_bytes, processEntries_replicate]

/-- The color-assignment walk changes nothing but `color_id`. -/
theorem assignColorsGo_map_gen {α : Type} (F : HeaderPlayer → α)
    (hF : ∀ (p : HeaderPlayer) (c : ℤ), F { p with color_id := c } = F p) :
    ∀ (used : List ℤ) (next : ℤ) (ps : List HeaderPlayer),
      (assignColorsGo used next ps).map F = ps.map F := by
  intro used next ps
  induction ps generalizing used next with
  | nil => rfl
  | cons p ps ih =>
    rw [assignColorsGo]
    by_cases h : p.color_id = -1
    · rw [if_pos h]
      cases pickColor used next with
      | none => simp only [List.map_cons, ih]
      | some c => simp only [List.map_cons, ih, hF]
    · rw [if_neg h]
      simp only [List.map_cons, ih]

/-- `assign_player_colors` changes nothing but `color_id`. -/
theorem assign_map_eq {α : Type} (F : HeaderPlayer → α)
    (hF : ∀ (p : HeaderPlayer) (c : ℤ), F { p with color_id := c } = F p)
    (ps : List HeaderPlayer) :
    (assign_player_colors ps).map F = ps.map F := by
  unfold assign_player_colors
  exact assignColorsGo_map_gen F hF _ _ ps

/-- Any projection of built players that ignores team and RGB factors
through the header players. -/
theorem build_players_map_gen {α : Type} (F : Player → α)
    (G : HeaderPlayer → α)
    (h : ∀ (hp : HeaderPlayer) (t : ℤ) (rgb : ℕ × ℕ × ℕ),
      F ⟨hp.name, hp.uid, t, hp.team_raw, hp.slot,
        Faction.from_id hp.faction_id, hp.color_id, rgb, none, none⟩ = G hp)
    (hps : List HeaderPlayer) :
    (build_players hps).map F = hps.map G := by
  unfold build_players
  rw [List.map_map]
  apply List.map_congr_left
  intro hp _
  exact h hp _ _

/-- The 257-slot buffer carries the magic signature. -/
theorem bufManySlots_take8 : bufManySlots.take 8 = MAGIC := by
  have h := List.take_left MAGIC
    (List.replicate 8 0 ++ asciiBytes hdrPrefixStr ++
      joinColon (List.replicate 257 (asciiBytes entrySlotStr)) ++ [0])
  rw [show MAGIC.length = 8 from rfl] at h
  calc bufManySlots.take 8
      = ((MAGIC ++ (List.replicate 8 0 ++ asciiBytes hdrPrefixStr ++
          joinColon (List.replicate 257 (asciiBytes entrySlotStr)) ++
          [0]))).take 8 := by
        unfold bufManySlots
        simp only [List.append_assoc]
    _ = MAGIC := h

/-- The 257-slot buffer is long enough for the header gate. -/
theorem bufManySlots_long : ¬(bufManySlots.length < 24) := by
  unfold bufManySlots
  simp only [List.length_append]
  have h1 : MAGIC.length = 8 := rfl
  have h2 : (List.replicate 8 (0 : ℕ)).length = 8 := rfl
  have h3 : (asciiBytes hdrPrefixStr).length = 22 := rfl
  omega

/-- Modelled from the spec: the player-row data (name, uid, team and
wrapped slot) that a table entry at a given index contributes, `none` for
unparsable entries and for spectators (negative team). -/
def rosterEntryOf (ie : ℕ × List ℕ) :
    Option (List ℕ × Option (List ℕ) × ℤ × ℕ) :=
  match parse_player_data ie.2 (ie.1 % 256) with
  | some hp =>
    if 0 ≤ hp.team_raw then some (hp.name, hp.uid, hp.team_raw, hp.slot)
    else none
  | none => none

/-- Modelled from the spec: the spectator name a table entry at a given
index contributes, `none` for unparsable entries and for players. -/
def spectatorEntryOf (ie : ℕ × List ℕ) : Option (List ℕ) :=
  match parse_player_data ie.2 (ie.1 % 256) with
  | some hp => if 0 ≤ hp.team_raw then none else some hp.name
  | none => none

/-- The table walk produces exactly the per-entry roster rows as players
and the per-entry spectator names as spectators, in order. -/
theorem processEntries_proj (es : List (List ℕ)) :
    ∀ idx : ℕ,
      (processEntries idx es).players.map
          (fun hp => (hp.name, hp.uid, hp.team_raw, hp.slot)) =
        (List.enumFrom idx es).filterMap rosterEntryOf ∧
      (processEntries idx es).spectators =
        (List.enumFrom idx es).filterMap spectatorEntryOf := by
  induction es with
  | nil => exact fun idx => ⟨rfl, rfl⟩
  | cons e es ih =>
    intro idx
    rw [processEntries]
    have henum : List.enumFrom idx (e :: es) =
        (idx, e) :: List.enumFrom (idx + 1) es := rfl
    rw [henum, List.filterMap_cons, List.filterMap_cons]
    cases hp : parse_player_data e (idx % 256) with
    | none =>
      have h1 : rosterEntryOf (idx, e) = none := by
        unfold rosterEntryOf
        rw [hp]
      have h2 : spectatorEntryOf (idx, e) = none := by
        unfold spectatorEntryOf
        rw [hp]
      rw [h1, h2]
      exact ⟨(ih (idx + 1)).1, (ih (idx + 1)).2⟩
    | some hp0 =>
      by_cases ht : 0 ≤ hp0.team_raw
      · have h1 : rosterEntryOf (idx, e) =
            some (hp0.name, hp0.uid, hp0.team_raw, hp0.slot) := by
          unfold rosterEntryOf
          rw [hp]
          exact if_pos ht
        have h2 : spectatorEntryOf (idx, e) = none := by
          unfold spectatorEntryOf
          rw [hp]
          exact if_pos ht
        rw [h1, h2]
        dsimp only
        rw [if_pos ht]
        dsimp only
        exact ⟨by rw [List.map_cons, (ih (idx + 1)).1], (ih (idx + 1)).2⟩
      · have h1 : rosterEntryOf (idx, e) = none := by
          unfold rosterEntryOf
          rw [hp]
          exact if_neg ht
        have h2 : spectatorEntryOf (idx, e) = some hp0.name := by
          unfold spectatorEntryOf
          rw [hp]
          exact if_neg ht
        rw [h1, h2]
        dsimp only
        rw [if_neg ht]
        dsimp only
        exact ⟨(ih (idx + 1)).1, by rw [(ih (idx + 1)).2]⟩

/-- A parsed table entry carries the slot it was given. -/
theorem ppd_slot (e : List ℕ) (s : ℕ) (hp : HeaderPlayer)
    (h : parse_player_data e s = some hp) : hp.slot = s := by
  unfold parse_player_data at h
  dsimp only at h
  split_ifs at h
  any_goals cases h
  all_goals rfl

/-- With at most 256 entries the produced player slots are strictly
increasing and bounded below by the start index. -/
theorem processEntries_slots (es : List (List ℕ)) :
    ∀ idx : ℕ, idx + es.length ≤ 256 →
      List.Pairwise (fun a b : HeaderPlayer => a.slot < b.slot)
        (processEntries idx es).players ∧
      ∀ p ∈ (processEntries idx es).players, idx ≤ p.slot := by
  induction es with
  | nil =>
    intro idx _
    exact ⟨List.Pairwise.nil, fun p hp => absurd hp (List.not_mem_nil p)⟩
  | cons e es ih =>
    intro idx h
    rw [List.length_cons] at h
    obtain ⟨hpw, hlb⟩ := ih (idx + 1) (by omega)
    rw [processEntries]
    cases hp : parse_player_data e (idx % 256) with
    | none =>
      exact ⟨hpw, fun p hmem => Nat.le_of_succ_le (hlb p hmem)⟩
    | some hp0 =>
      have hslot : hp0.slot = idx := by
        rw [ppd_slot e (idx % 256) hp0 hp]
        exact Nat.mod_eq_of_lt (by omega)
      by_cases ht : 0 ≤ hp0.team_raw
      · dsimp only
        rw [if_pos ht]
        dsimp only
        constructor
        · rw [List.pairwise_cons]
          exact ⟨fun b hb => by
            rw [hslot]
            exact Nat.lt_of_succ_le (hlb b hb), hpw⟩
        · intro p hmem
          rcases List.mem_cons.mp hmem with rfl | hmem
          · rw [hslot]
          · exact Nat.le_of_succ_le (hlb p hmem)
      · dsimp only
        rw [if_neg ht]
        dsimp only
        exact ⟨hpw, fun p hmem => Nat.le_of_succ_le (hlb p hmem)⟩

/-- Assembly passes the header spectators through unchanged. -/
theorem assembleInfo_spectators (o : IterOrd) (data : List ℕ)
    (m : List ℕ) :
    (assembleInfo o data m).spectators = (headerTableOf data).spectators := by
  unfold assembleInfo
  cases find_chunks_start data <;> rfl

/-- The 257-slot buffer decodes successfully. -/
theorem parse_bufManySlots :
    parse_replay ordId bufManySlots =
      .ok (assembleInfo ordId bufManySlots (asciiBytes mapWorRhunStr)) := by
  unfold parse_replay
  rw [if_neg, find_map_name_bufManySlots]
  · dsimp only
    rw [if_neg (by decide), if_neg]
    rw [headerTableOf_bufManySlots]
    intro h
    have h2 := congrArg List.length h
    rw [List.length_map, List.length_range'] at h2
    exact absurd h2 (by decide)
  · rintro (h | h)
    · exact bufManySlots_long h
    · exact h bufManySlots_take8

/-- The decoded slot sequence of the 257-slot buffer wraps modulo 256. -/
theorem manySlots_slot_map :
    (assembleInfo ordId bufManySlots (asciiBytes mapWorRhunStr)).players.map
      (fun p => p.slot) = (List.range' 0 257).map (fun i => i % 256) := by
  rw [parse_players_map_eq ordId bufManySlots
    (assembleInfo ordId bufManySlots (asciiBytes mapWorRhunStr))
    (fun p => p.slot) (fun p mp af => rfl) (fun p t => rfl) parse_bufManySlots]
  rw [show coloredPlayersOf bufManySlots =
    assign_player_colors (headerTableOf bufManySlots).players from rfl]
  rw [build_players_map_gen (fun p => p.slot) (fun hp => hp.slot)
    (fun hp t rgb => rfl)]
  rw [assign_map_eq (fun hp => hp.slot) (fun p c => rfl)]
  rw [headerTableOf_bufManySlots]
  rw [List.map_map]
  rfl

set_option maxRecDepth 4000 in
/-- C10 counterexample: a buffer whose player table holds 257 occupied
slot entries decodes successfully, yet its slot sequence is the `u8`-cast
sequence `0, 1, ..., 255, 0` - the 257th entry wraps back to slot 0 - so
`players[i].slot` is not strictly increasing by index, refuting the
unconditional slot-stability part of the claim. -/
theorem claim_C10_counterexample :
    parse_replay ordId bufManySlots =
      .ok (assembleInfo ordId bufManySlots (asciiBytes mapWorRhunStr)) ∧
    (assembleInfo ordId bufManySlots (asciiBytes mapWorRhunStr)).players.map
      (fun p => p.slot) = (List.range' 0 257).map (fun i => i % 256) ∧
    ¬ List.Pairwise (fun a b : ℕ => a < b)
      ((assembleInfo ordId bufManySlots
        (asciiBytes mapWorRhunStr)).players.map (fun p => p.slot)) := by
  refine ⟨parse_bufManySlots, manySlots_slot_map, ?_⟩
  rw [manySlots_slot_map]
  decide

/-- C10 (amended): for every input that passes the signature gate, whose
map name is found and supported, with at least one roster entry of
nonnegative `team_raw` and at most 256 table entries, decoding succeeds;
the players are exactly - in order, with name, uid, `team_raw` and slot -
the parsable entries with nonnegative `team_raw`, the entries with
negative `team_raw` are exactly the spectators, and `players[i].slot` is
strictly increasing by index. -/
theorem claim_C10_amended (o : IterOrd) (data : List ℕ) (m : List ℕ)
    (hgate : ¬(data.length < 24 ∨ data.take 8 ≠ MAGIC))
    (hmap : find_map_name_in data = some m)
    (hsup : containsWorRhun m = true)
    (hone : 0 < ((List.enumFrom 0 (playerEntriesOf data)).filterMap
      rosterEntryOf).length)
    (hcount : (playerEntriesOf data).length ≤ 256) :
    parse_replay o data = .ok (assembleInfo o data m) ∧
    (assembleInfo o data m).players.map
        (fun p => (p.name, p.uid, p.team_raw, p.slot)) =
      (List.enumFrom 0 (playerEntriesOf data)).filterMap rosterEntryOf ∧
    (assembleInfo o data m).spectators =
      (List.enumFrom 0 (playerEntriesOf data)).filterMap spectatorEntryOf ∧
    List.Pairwise (fun a b => a.slot < b.slot)
      (assembleInfo o data m).players := by
  have hproj := processEntries_proj (playerEntriesOf data) 0
  have hplayers : ¬ (headerTableOf data).players = [] := by
    intro h
    have h2 := congrArg List.length hproj.1
    rw [show (processEntries 0 (playerEntriesOf data)).players =
      (headerTableOf data).players from rfl, h] at h2
    rw [List.length_map, List.length_nil] at h2
    omega
  have hok : parse_replay o data = .ok (assembleInfo o data m) := by
    unfold parse_replay
    rw [if_neg hgate, hmap]
    dsimp only
    rw [if_neg (by simp [hsup]), if_neg hplayers]
  have hslots : (assembleInfo o data m).players.map (fun p => p.slot) =
      (headerTableOf data).players.map (fun hp => hp.slot) := by
    rw [parse_players_map_eq o data (assembleInfo o data m)
      (fun p => p.slot) (fun p mp af => rfl) (fun p t => rfl) hok]
    rw [show coloredPlayersOf data =
      assign_player_colors (headerTableOf data).players from rfl]
    rw [build_players_map_gen (fun p => p.slot) (fun hp => hp.slot)
      (fun hp t rgb => rfl)]
    rw [assign_map_eq (fun hp => hp.slot) (fun p c => rfl)]
  refine ⟨hok, ?_, ?_, ?_⟩
  · rw [parse_players_map_eq o data (assembleInfo o data m)
      (fun p => (p.name, p.uid, p.team_raw, p.slot))
      (fun p mp af => rfl) (fun p t => rfl) hok]
    rw [show coloredPlayersOf data =
      assign_player_colors (headerTableOf data).players from rfl]
    rw [build_players_map_gen
      (fun p => (p.name, p.uid, p.team_raw, p.slot))
      (fun hp => (hp.name, hp.uid, hp.team_raw, hp.slot))
      (fun hp t rgb => rfl)]
    rw [assign_map_eq (fun hp => (hp.name, hp.uid, hp.team_raw, hp.slot))
      (fun p c => rfl)]
    exact hproj.1
  · rw [assembleInfo_spectators o data m]
    exact hproj.2
  · have hpw := (processEntries_slots (playerEntriesOf data) 0
      (by omega)).1
    have h1 : List.Pairwise (fun a b : ℕ => a < b)
        ((headerTableOf data).players.map (fun hp => hp.slot)) :=
      (List.pairwise_map).mpr hpw
    rw [← hslots] at h1
    exact (List.pairwise_map).mp h1

set_option maxRecDepth 4000 in
/-- C10 witness: the amended theorem at the concrete two-player buffer,
every hypothesis discharged by evaluation. -/
theorem claim_C10_witness :
    (¬(bufCrash.length < 24 ∨ bufCrash.take 8 ≠ MAGIC)) ∧
    find_map_name_in bufCrash = some (asciiBytes mapWorRhunStr) ∧
    containsWorRhun (asciiBytes mapWorRhunStr) = true ∧
    0 < ((List.enumFrom 0 (playerEntriesOf bufCrash)).filterMap
      rosterEntryOf).length ∧
    (playerEntriesOf bufCrash).length ≤ 256 ∧
    (parse_replay ordId bufCrash =
        .ok (assembleInfo ordId bufCrash (asciiBytes mapWorRhunStr)) ∧
      (assembleInfo ordId bufCrash (asciiBytes mapWorRhunStr)).players.map
          (fun p => (p.name, p.uid, p.team_raw, p.slot)) =
        (List.enumFrom 0 (playerEntriesOf bufCrash)).filterMap
          rosterEntryOf ∧
      (assembleInfo ordId bufCrash (asciiBytes mapWorRhunStr)).spectators =
        (List.enumFrom 0 (playerEntriesOf bufCrash)).filterMap
          spectatorEntryOf ∧
      List.Pairwise (fun a b => a.slot < b.slot)
        (assembleInfo ordId bufCrash (asciiBytes mapWorRhunStr)).players) :=
  ⟨by decide, by decide, by decide, by decide, by decide,
    claim_C10_amended ordId bufCrash (asciiBytes mapWorRhunStr)
      (by decide) (by decide) (by decide) (by decide) (by decide)⟩

/-- `find?` is permutation-invariant when at most one element can match. -/
theorem find_perm_unique {α : Type} (p : α → Bool) (l1 l2 : List α)
    (hp : l1.Perm l2)
    (hu : ∀ a ∈ l1, ∀ b ∈ l1, p a = true → p b = true → a = b) :
    l1.find? p = l2.find? p := by
  cases h1 : l1.find? p with
  | none =>
    rw [List.find?_eq_none] at h1
    symm
    rw [List.find?_eq_none]
    exact fun x hx => h1 x (hp.mem_iff.mpr hx)
  | some a =>
    have ha := List.find?_some h1
    have hmem := List.mem_of_find?_eq_some h1
    cases h2 : l2.find? p with
    | none =>
      rw [List.find?_eq_none] at h2
      exact absurd ha (by simpa using h2 a (hp.mem_iff.mp hmem))
    | some b =>
      have hb := List.find?_some h2
      have hmemb := List.mem_of_find?_eq_some h2
      rw [hu a hmem b (hp.mem_iff.mpr hmemb) ha hb]

/-- `findSome?` is permutation-invariant when all hits agree. -/
theorem findSome_perm_unique {α β : Type} (f : α → Option β)
    (l1 l2 : List α) (hp : l1.Perm l2)
    (hu : ∀ a ∈ l1, ∀ b ∈ l1, f a = none ∨ f b = none ∨ f a = f b) :
    l1.findSome? f = l2.findSome? f := by
  cases h1 : l1.findSome? f with
  | none =>
    rw [List.findSome?_eq_none] at h1
    symm
    rw [List.findSome?_eq_none]
    exact fun x hx => h1 x (hp.mem_iff.mpr hx)
  | some x =>
    obtain ⟨a, hmem, hfa⟩ := List.exists_of_findSome?_eq_some h1
    cases h2 : l2.findSome? f with
    | none =>
      rw [List.findSome?_eq_none] at h2
      rw [h2 a (hp.mem_iff.mp hmem)] at hfa
      cases hfa
    | some y =>
      obtain ⟨b, hmemb, hfb⟩ := List.exists_of_findSome?_eq_some h2
      rcases hu a hmem b (hp.mem_iff.mpr hmemb) with h | h | h
      · rw [h] at hfa
        cases hfa
      · rw [h] at hfb
        cases hfb
      · rw [hfa, hfb] at h
        exact h

/-- A successful association lookup is a member. -/
theorem assocFind_mem {κ α : Type} [DecidableEq κ] (k : κ) (v : α) :
    ∀ l : List (κ × α), assocFind k l = some v → (k, v) ∈ l := by
  intro l
  induction l with
  | nil => intro h; cases h
  | cons e rest ih =>
    rcases e with ⟨k1, v1⟩
    intro h
    rw [assocFind] at h
    by_cases hk : k1 = k
    · rw [if_pos hk] at h
      injection h with hh
      subst hh hk
      exact List.mem_cons_self _ _
    · rw [if_neg hk] at h
      exact List.mem_cons_of_mem _ (ih h)

/-- Overwrite-insert makes the inserted key resolve to the new value. -/
theorem assocFind_overwrite_self {κ α : Type} [DecidableEq κ] (k : κ)
    (v : α) (l : List (κ × α)) :
    assocFind k (assocOverwrite k v l) = some v := by
  induction l with
  | nil => simp [assocOverwrite, assocFind]
  | cons e rest ih =>
    rcases e with ⟨k1, v1⟩
    rw [assocOverwrite]
    by_cases hk : k1 = k
    · rw [if_pos hk, assocFind, if_pos rfl]
    · rw [if_neg hk, assocFind, if_neg hk, ih]

/-- Overwrite-insert leaves other keys alone. -/
theorem assocFind_overwrite_other {κ α : Type} [DecidableEq κ]
    (k k' : κ) (v : α) (l : List (κ × α)) (h : k' ≠ k) :
    assocFind k (assocOverwrite k' v l) = assocFind k l := by
  induction l with
  | nil => simp [assocOverwrite, assocFind, h]
  | cons e rest ih =>
    rcases e with ⟨k1, v1⟩
    rw [assocOverwrite]
    by_cases hk : k1 = k'
    · subst hk
      rw [if_pos rfl, assocFind, if_neg h, assocFind, if_neg h]
    · rw [if_neg hk, assocFind, assocFind]
      by_cases hk2 : k1 = k
      · rw [if_pos hk2, if_pos hk2]
      · rw [if_neg hk2, if_neg hk2, ih]

/-- `foldl` only depends on the fold function pointwise. -/
theorem foldl_congr_fun {α β : Type} (f g : β → α → β)
    (h : ∀ b a, f b a = g b a) :
    ∀ (l : List α) (b : β), l.foldl f b = l.foldl g b := by
  intro l
  induction l with
  | nil => intro b; rfl
  | cons a rest ih =>
    intro b
    rw [List.foldl_cons, List.foldl_cons, h, ih]

/-- The identity iteration order is valid. -/
theorem ordId_valid : validIterOrd ordId :=
  ⟨fun l => List.Perm.refl l, fun l => List.Perm.refl l,
    fun l => List.Perm.refl l⟩

/-- The reversing iteration order is valid. -/
theorem ordRev_valid : validIterOrd ordRev :=
  ⟨fun l => List.reverse_perm l, fun l => List.reverse_perm l,
    fun l => List.reverse_perm l⟩

/-- With pairwise-distinct slots, the overwrite fold building `slot_to_pn`
resolves a slot to the player number of its unique pair. -/
theorem slotToPn_fold_char (k : ℕ) :
    ∀ l : List (ℕ × ℕ), (l.map Prod.snd).Nodup →
      ∀ acc : List (ℕ × ℕ),
        assocFind k (l.foldl (fun acc e => assocOverwrite e.2 e.1 acc) acc) =
          match l.find? (fun e => e.2 == k) with
          | some e => some e.1
          | none => assocFind k acc := by
  intro l
  induction l with
  | nil => intro _ acc; rfl
  | cons e rest ih =>
    intro hnd acc
    rw [List.map_cons, List.nodup_cons] at hnd
    rw [List.foldl_cons, List.find?]
    by_cases hk : e.2 = k
    · rw [show (e.2 == k) = true from by simp [hk]]
      have hnone : rest.find? (fun x => x.2 == k) = none := by
        rw [List.find?_eq_none]
        intro x hx
        simp only [beq_iff_eq]
        intro hxk
        apply hnd.1
        have hmem := List.mem_map_of_mem Prod.snd hx
        rw [hxk, ← hk] at hmem
        exact hmem
      rw [ih hnd.2, hnone]
      rw [hk, assocFind_overwrite_self]
    · rw [show (e.2 == k) = false from by simp [hk]]
      rw [ih hnd.2]
      cases rest.find? (fun x => x.2 == k) with
      | some x => rfl
      | none => exact assocFind_overwrite_other k e.2 e.1 acc hk

/-- With pairwise-distinct slots, `slot_to_pn` lookups do not depend on
the iteration order. -/
theorem slotToPn_lookup_perm (o : IterOrd) (ho : validIterOrd o)
    (p2s : List (ℕ × ℕ)) (hnd : (p2s.map Prod.snd).Nodup) (k : ℕ) :
    assocFind k (slotToPnOf o p2s) = assocFind k (slotToPnOf ordId p2s) := by
  unfold slotToPnOf
  have hperm : (o.pns p2s).Perm p2s := ho.2.2 p2s
  have hnd' : ((o.pns p2s).map Prod.snd).Nodup :=
    ((hperm.map Prod.snd).symm).nodup hnd
  have hid : ordId.pns p2s = p2s := rfl
  rw [hid, slotToPn_fold_char k (o.pns p2s) hnd' [],
    slotToPn_fold_char k p2s hnd []]
  have hfind : (o.pns p2s).find? (fun e => e.2 == k) =
      p2s.find? (fun e => e.2 == k) := by
    apply find_perm_unique _ _ _ hperm
    intro a ha b hb hpa hpb
    have hinj := List.inj_on_of_nodup_map hnd'
    apply hinj ha hb
    simp only [beq_iff_eq] at hpa hpb
    rw [hpa, hpb]
  rw [hfind]

/-- The team grouping only depends on `slot_to_pn` through lookups. -/
theorem teamPlayersOf_congr (hps : List HeaderPlayer)
    (s1 s2 : List (ℕ × ℕ)) (h : ∀ k, assocFind k s1 = assocFind k s2) :
    teamPlayersOf hps s1 = teamPlayersOf hps s2 := by
  unfold teamPlayersOf
  exact foldl_congr_fun _ _ (fun acc hp => by rw [h hp.slot]) hps []

/-- All building ids of every per-slot set that resolve to a faction
resolve to the same faction (so faction inference cannot depend on the
set iteration order). -/
def uniquelyInferred (bids : List (ℕ × List ℕ)) : Prop :=
  ∀ e ∈ bids, ∀ a ∈ e.2, ∀ b ∈ e.2,
    infer_faction_from_building a = none ∨
    infer_faction_from_building b = none ∨
    infer_faction_from_building a = infer_faction_from_building b

/-- Faction detection is iteration-order-independent on a set whose
resolvable ids agree. -/
theorem detect_perm (g : List ℕ → List ℕ) (hg : ∀ l, (g l).Perm l)
    (s : List ℕ)
    (hu : ∀ a ∈ s, ∀ b ∈ s,
      infer_faction_from_building a = none ∨
      infer_faction_from_building b = none ∨
      infer_faction_from_building a = infer_faction_from_building b) :
    detect_faction_from_buildings (g s) = detect_faction_from_buildings s := by
  unfold detect_faction_from_buildings
  apply findSome_perm_unique _ _ _ (hg s)
  intro a ha b hb
  exact hu a ((hg s).mem_iff.mp ha) b ((hg s).mem_iff.mp hb)

/-- `player_builds` does not depend on the iteration order when every
building-id set resolves uniquely. -/
theorem mkPlayerBuilds_eq (o1 o2 : IterOrd) (h1 : validIterOrd o1)
    (h2 : validIterOrd o2) (merged : List (ℕ × MapPosition))
    (bids : List (ℕ × List ℕ)) (hu : uniquelyInferred bids) :
    mkPlayerBuilds o1 merged bids = mkPlayerBuilds o2 merged bids := by
  unfold mkPlayerBuilds
  apply foldl_congr_fun
  intro acc e
  dsimp only
  cases hb : assocFind e.1 bids with
  | none => rfl
  | some s =>
    have hmem := assocFind_mem e.1 s bids hb
    have hus := fun a ha b hbm => hu (e.1, s) hmem a ha b hbm
    rw [Option.some_bind, Option.some_bind,
      detect_perm o1.bids h1.1 s hus, detect_perm o2.bids h2.1 s hus]

/-- A permutation of a two-element list is one of its two arrangements. -/
theorem perm_pair_cases {α : Type} (l : List α) (a b : α)
    (h : l.Perm [a, b]) : l = [a, b] ∨ l = [b, a] := by
  rcases l with _ | ⟨x, _ | ⟨y, _ | ⟨z, r⟩⟩⟩
  · have hl := h.length_eq
    simp at hl
  · have hl := h.length_eq
    simp at hl
  · have hx : x ∈ [a, b] := h.subset (List.mem_cons_self _ _)
    rcases (by simpa using hx : x = a ∨ x = b) with h5 | h5
    · left
      rw [h5] at h
      have h2 := h.cons_inv
      have h3 := List.perm_singleton.mp h2
      injection h3 with h4 _
      rw [h5, h4]
    · right
      rw [h5] at h
      have h2 := (h.trans (List.Perm.swap b a [])).cons_inv
      have h3 := List.perm_singleton.mp h2
      injection h3 with h4 _
      rw [h5, h4]
  · have hl := h.length_eq
    simp at hl

/-- The majority-defeated comparison of a two-team grouping is symmetric
in the grouping order. -/
theorem wmaj_swap (defeated : List ℕ) (sides : List (ℤ × Side))
    (a b : ℤ × List ℕ) :
    winner_from_majority_defeated defeated [a, b] sides =
      winner_from_majority_defeated defeated [b, a] sides := by
  rcases a with ⟨t1, ps1⟩
  rcases b with ⟨t2, ps2⟩
  unfold winner_from_majority_defeated
  dsimp only
  by_cases h1 : (ps1.filter (fun pn => decide (pn ∈ defeated))).length >
      (ps2.filter (fun pn => decide (pn ∈ defeated))).length
  · rw [if_pos h1, if_neg (by omega), if_pos h1]
  · rw [if_neg h1]
    by_cases h2 : (ps2.filter (fun pn => decide (pn ∈ defeated))).length >
        (ps1.filter (fun pn => decide (pn ∈ defeated))).length
    · rw [if_pos h2, if_pos h2]
    · rw [if_neg h2, if_neg h2, if_neg h1]

/-- The other-side scan skips the defeated team itself, so with one other
team the scan order does not matter. -/
theorem findOtherSide_skip_self (sides : List (ℤ × Side)) (t v : ℤ)
    (ps qs : List ℕ) :
    findOtherSide sides t [(t, ps), (v, qs)] =
      findOtherSide sides t [(v, qs), (t, ps)] := by
  by_cases hv : v = t
  · simp [findOtherSide, hv]
  · cases hs : assocFind v sides <;> simp [findOtherSide, hv, hs]

/-- The full-defeat winner of a two-team grouping does not depend on the
grouping order when at most one team is fully defeated. -/
theorem wffd_swap (defeated : List ℕ) (sides : List (ℤ × Side))
    (a b : ℤ × List ℕ)
    (hu : a.2.all (fun pn => decide (pn ∈ defeated)) = true →
      b.2.all (fun pn => decide (pn ∈ defeated)) = true → a = b) :
    winner_from_full_defeat defeated [a, b] sides =
      winner_from_full_defeat defeated [b, a] sides := by
  rcases a with ⟨t1, ps1⟩
  rcases b with ⟨t2, ps2⟩
  by_cases hf1 : ps1.all (fun pn => decide (pn ∈ defeated)) = true
  <;> by_cases hf2 : ps2.all (fun pn => decide (pn ∈ defeated)) = true
  · have heq := hu hf1 hf2
    injection heq with ht hps
    subst ht
    subst hps
    rfl
  · simp only [winner_from_full_defeat, winner_from_full_defeat.go,
      hf1, hf2, if_true, if_false]
    rw [findOtherSide_skip_self sides t1 t2 ps1 ps2]
    simp
  · simp only [winner_from_full_defeat, winner_from_full_defeat.go,
      hf1, hf2, if_true, if_false]
    rw [findOtherSide_skip_self sides t2 t1 ps2 ps1]
    simp
  · simp only [winner_from_full_defeat, winner_from_full_defeat.go,
      hf1, hf2, if_true, if_false]
    simp

/-- At most one group of the team grouping is fully contained in the
defeated set. -/
def atMostOneFullyDefeated (defeated : List ℕ)
    (tp : List (ℤ × List ℕ)) : Prop :=
  ∀ e1 ∈ tp, ∀ e2 ∈ tp,
    e1.2.all (fun pn => decide (pn ∈ defeated)) = true →
    e2.2.all (fun pn => decide (pn ∈ defeated)) = true → e1 = e2

/-- The full-defeat winner is invariant under permutations of a grouping
with at most two teams and at most one fully defeated team. -/
theorem wffd_perm (defeated : List ℕ) (sides : List (ℤ × Side))
    (tpB tp1 tp2 : List (ℤ × List ℕ))
    (hp1 : tp1.Perm tpB) (hp2 : tp2.Perm tpB) (hlen : tpB.length ≤ 2)
    (hu : atMostOneFullyDefeated defeated tpB) :
    winner_from_full_defeat defeated tp1 sides =
      winner_from_full_defeat defeated tp2 sides := by
  rcases tpB with _ | ⟨a, _ | ⟨b, _ | ⟨c, r⟩⟩⟩
  · rw [List.perm_nil.mp hp1, List.perm_nil.mp hp2]
  · rw [List.perm_singleton.mp hp1, List.perm_singleton.mp hp2]
  · have hub := hu a (List.mem_cons_self _ _) b
      (List.mem_cons_of_mem _ (List.mem_cons_self _ _))
    rcases perm_pair_cases _ _ _ hp1 with h1 | h1 <;>
      rcases perm_pair_cases _ _ _ hp2 with h2 | h2 <;> rw [h1, h2]
    · exact wffd_swap defeated sides a b hub
    · exact (wffd_swap defeated sides a b hub).symm
  · simp at hlen

/-- The majority-defeated winner is invariant under permutations of a
grouping with at most two teams. -/
theorem wmaj_perm (defeated : List ℕ) (sides : List (ℤ × Side))
    (tpB tp1 tp2 : List (ℤ × List ℕ))
    (hp1 : tp1.Perm tpB) (hp2 : tp2.Perm tpB) (hlen : tpB.length ≤ 2) :
    winner_from_majority_defeated defeated tp1 sides =
      winner_from_majority_defeated defeated tp2 sides := by
  rcases tpB with _ | ⟨a, _ | ⟨b, _ | ⟨c, r⟩⟩⟩
  · rw [List.perm_nil.mp hp1, List.perm_nil.mp hp2]
  · rw [List.perm_singleton.mp hp1, List.perm_singleton.mp hp2]
  · rcases perm_pair_cases _ _ _ hp1 with h1 | h1 <;>
      rcases perm_pair_cases _ _ _ hp2 with h2 | h2 <;> rw [h1, h2]
    · exact wmaj_swap defeated sides a b
    · exact (wmaj_swap defeated sides a b).symm
  · simp at hlen

/-- `determine_winner` does not depend on the iteration order, given
distinct slots, at most two teams and at most one fully defeated team. -/
theorem determine_winner_perm (o1 o2 : IterOrd) (h1 : validIterOrd o1)
    (h2 : validIterOrd o2) (pr : ChunkParseResult)
    (hps : List HeaderPlayer) (sides : List (ℤ × Side))
    (p2s : List (ℕ × ℕ)) (hnd : (p2s.map Prod.snd).Nodup)
    (hlen : (teamPlayersOf hps (slotToPnOf ordId p2s)).length ≤ 2)
    (hu : atMostOneFullyDefeated pr.combat.defeated_players
      (teamPlayersOf hps (slotToPnOf ordId p2s))) :
    determine_winner o1 pr hps sides p2s =
      determine_winner o2 pr hps sides p2s := by
  unfold determine_winner
  dsimp only
  have ht1 : teamPlayersOf hps (slotToPnOf o1 p2s) =
      teamPlayersOf hps (slotToPnOf ordId p2s) :=
    teamPlayersOf_congr hps _ _ (fun k => slotToPn_lookup_perm o1 h1 p2s hnd k)
  have ht2 : teamPlayersOf hps (slotToPnOf o2 p2s) =
      teamPlayersOf hps (slotToPnOf ordId p2s) :=
    teamPlayersOf_congr hps _ _ (fun k => slotToPn_lookup_perm o2 h2 p2s hnd k)
  have htp1 : (o1.teams (teamPlayersOf hps (slotToPnOf o1 p2s))).Perm
      (teamPlayersOf hps (slotToPnOf ordId p2s)) := by
    rw [ht1] at *
    exact h1.2.1 _
  have htp2 : (o2.teams (teamPlayersOf hps (slotToPnOf o2 p2s))).Perm
      (teamPlayersOf hps (slotToPnOf ordId p2s)) := by
    rw [ht2] at *
    exact h2.2.1 _
  cases winner_from_endgame pr.combat hps sides p2s with
  | some w => rfl
  | none =>
    by_cases hd : pr.combat.defeated_players = []
    · simp only [if_pos hd]
    · simp only [if_neg hd]
      rw [wffd_perm pr.combat.defeated_players sides _ _ _ htp1 htp2 hlen hu,
        wmaj_perm pr.combat.defeated_players sides _ _ _ htp1 htp2 hlen]

/-- The team grouping of a buffer in the reference iteration order. -/
def tpBaseOf (data : List ℕ) : List (ℤ × List ℕ) :=
  teamPlayersOf (coloredPlayersOf data) (slotToPnOf ordId (pnToSlotOf data))

/-- The per-slot building-id sets after the chunk decode loop. -/
def chunkBidsOf (data : List ℕ) (s : ℕ) : List (ℕ × List ℕ) :=
  (chunkLoopState data s (coloredPlayersOf data)
    (pnToSlotOf data)).player_building_ids

/-- The combat result after the decode loop and the raw-scan fallback
(independent of the iteration order). -/
def combatAfterScanOf (data : List ℕ) (s : ℕ) : CombatResult :=
  raw_scan_for_critical_events data s
    (validPlayerNums (coloredPlayersOf data) (pnToSlotOf data))
    (chunkLoopState data s (coloredPlayersOf data) (pnToSlotOf data)).combat

/-- Assembly does not depend on the iteration order under the C1 side
conditions. -/
theorem assembleInfo_perm (o1 o2 : IterOrd) (data : List ℕ) (m : List ℕ)
    (h1 : validIterOrd o1) (h2 : validIterOrd o2)
    (hnd : ((pnToSlotOf data).map Prod.snd).Nodup)
    (hlen : (tpBaseOf data).length ≤ 2)
    (hbids : ∀ s, find_chunks_start data = some s →
      uniquelyInferred (chunkBidsOf data s))
    (hfd : ∀ s, find_chunks_start data = some s →
      atMostOneFullyDefeated (combatAfterScanOf data s).defeated_players
        (tpBaseOf data)) :
    assembleInfo o1 data m = assembleInfo o2 data m := by
  unfold tpBaseOf at hlen
  unfold assembleInfo
  cases hcs : find_chunks_start data with
  | none => rfl
  | some s =>
    dsimp only
    have hb := hbids s hcs
    unfold chunkBidsOf at hb
    have hf := hfd s hcs
    unfold combatAfterScanOf tpBaseOf at hf
    have hpr : parse_and_analyze_chunks o1 data s (coloredPlayersOf data)
        (pnToSlotOf data) = parse_and_analyze_chunks o2 data s
        (coloredPlayersOf data) (pnToSlotOf data) := by
      unfold parse_and_analyze_chunks
      dsimp only
      rw [mkPlayerBuilds_eq o1 o2 h1 h2 _ _ hb]
    rw [hpr]
    rw [determine_winner_perm o1 o2 h1 h2 _ _ _ _ hnd hlen hf]

/-- C1 (amended): decoding is deterministic - two runs with any two valid
HashMap/HashSet iteration orders give identical results - provided the
occupied slots are pairwise distinct, there are at most two teams, every
observed building-id set resolves to at most one faction, and at most one
team is fully defeated. The unconditional claim fails: iteration order
is genuinely observable in the excluded cases. -/
theorem claim_C1_amended (o1 o2 : IterOrd) (data : List ℕ)
    (h1 : validIterOrd o1) (h2 : validIterOrd o2)
    (hnd : ((pnToSlotOf data).map Prod.snd).Nodup)
    (hlen : (tpBaseOf data).length ≤ 2)
    (hbids : ∀ s, find_chunks_start data = some s →
      uniquelyInferred (chunkBidsOf data s))
    (hfd : ∀ s, find_chunks_start data = some s →
      atMostOneFullyDefeated (combatAfterScanOf data s).defeated_players
        (tpBaseOf data)) :
    parse_replay o1 data = parse_replay o2 data := by
  unfold parse_replay
  by_cases hg : data.length < 8 + 16 ∨ data.take 8 ≠ MAGIC
  · rw [if_pos hg, if_pos hg]
  · rw [if_neg hg, if_neg hg]
    cases find_map_name_in data with
    | none => rfl
    | some m =>
      dsimp only
      by_cases hsup : ¬ containsWorRhun m
      · rw [if_pos hsup, if_pos hsup]
      · rw [if_neg hsup, if_neg hsup]
        by_cases hpl : (headerTableOf data).players = []
        · rw [if_pos hpl, if_pos hpl]
        · rw [if_neg hpl, if_neg hpl,
            assembleInfo_perm o1 o2 data m h1 h2 hnd hlen hbids hfd]

set_option maxRecDepth 4000 in
/-- C1 counterexample: on a buffer whose event stream leaves both teams
fully defeated, two valid iteration orders (identity and reversal of the
team grouping) produce different winners, refuting unconditional
determinism - the winner depends on which fully-defeated team the
randomized HashMap iteration visits first. -/
theorem claim_C1_counterexample :
    validIterOrd ordId ∧ validIterOrd ordRev ∧
    (parse_replay ordId bufBothDefeated).map (fun i => i.winner) =
      .ok .rightTeam ∧
    (parse_replay ordRev bufBothDefeated).map (fun i => i.winner) =
      .ok .leftTeam :=
  ⟨ordId_valid, ordRev_valid, by decide, by decide⟩

/-- Unique inference is decidable. -/
instance uniquelyInferred_dec (bids : List (ℕ × List ℕ)) :
    Decidable (uniquelyInferred bids) := by
  unfold uniquelyInferred
  infer_instance

/-- At-most-one-fully-defeated is decidable. -/
instance atMostOneFullyDefeated_dec (defeated : List ℕ)
    (tp : List (ℤ × List ℕ)) :
    Decidable (atMostOneFullyDefeated defeated tp) := by
  unfold atMostOneFullyDefeated
  infer_instance

set_option maxRecDepth 4000 in
/-- C1 witness: the amended determinism theorem applied at the concrete
two-player buffer with the identity and reversing orders. -/
theorem claim_C1_witness :
    ((pnToSlotOf bufCrash).map Prod.snd).Nodup ∧
    (tpBaseOf bufCrash).length ≤ 2 ∧
    parse_replay ordId bufCrash = parse_replay ordRev bufCrash :=
  ⟨by decide, by decide,
    claim_C1_amended ordId ordRev bufCrash ordId_valid ordRev_valid
      (by decide) (by decide)
      (by
        intro s hs
        rw [show find_chunks_start bufCrash = some 60 from by decide] at hs
        injection hs with hh
        subst hh
        decide)
      (by
        intro s hs
        rw [show find_chunks_start bufCrash = some 60 from by decide] at hs
        injection hs with hh
        subst hh
        decide)⟩
